import Mathlib

/-!
Verification development for the `cash-test` repository, a blind-signature
electronic-cash core (Cashu BDHKE).  The Rust sources `src/crypto.rs`,
`src/models.rs` and `src/error.rs` are shallowly embedded below: bytes are
`List Nat` (each entry `< 256`), machine words are `Nat` reduced modulo
`2 ^ 32` or `2 ^ 256` where the source wraps, fallible operations return
`Option` or `Except`, and the unbounded retry loop of `hash_to_curve` takes
an explicit fuel argument.  External crates the source leans on (sha2, k256,
hex, base64, serde_json, url) are modelled concretely from their documented
behaviour so that every definition is executable.
-/

namespace CashTest

/-! ## Byte-level helpers -/

/-- Big-endian interpretation of a byte list as a natural number. -/
def beBytesToNat (bs : List Nat) : Nat :=
  bs.foldl (fun a b => a * 256 + b) 0

/-- Big-endian encoding of `n` in exactly `k` bytes (most significant first). -/
def natToBeBytes : Nat → Nat → List Nat
  | 0, _ => []
  | k + 1, n => natToBeBytes k (n / 256) ++ [n % 256]

/-! ## SHA-256 (model of the `sha2` crate)

A direct transcription of FIPS 180-4 over `Nat`, with every word reduced
modulo `2 ^ 32`.  Only used for concrete evaluation; no claim reasons about
digest internals. -/

namespace Sha256

def m32 (n : Nat) : Nat := n % 4294967296

def rotr (r x : Nat) : Nat := m32 ((x >>> r) ||| (x <<< (32 - r)))

def ssig0 (x : Nat) : Nat := rotr 7 x ^^^ rotr 18 x ^^^ (x >>> 3)

def ssig1 (x : Nat) : Nat := rotr 17 x ^^^ rotr 19 x ^^^ (x >>> 10)

def bsig0 (x : Nat) : Nat := rotr 2 x ^^^ rotr 13 x ^^^ rotr 22 x

def bsig1 (x : Nat) : Nat := rotr 6 x ^^^ rotr 11 x ^^^ rotr 25 x

def chFn (e f g : Nat) : Nat := (e &&& f) ^^^ ((4294967295 ^^^ e) &&& g)

def majFn (a b c : Nat) : Nat := (a &&& b) ^^^ (a &&& c) ^^^ (b &&& c)

def kTable : List Nat :=
  [1116352408, 1899447441, 3049323471, 3921009573, 961987163, 1508970993,
   2453635748, 2870763221, 3624381080, 310598401, 607225278, 1426881987,
   1925078388, 2162078206, 2614888103, 3248222580, 3835390401, 4022224774,
   264347078, 604807628, 770255983, 1249150122, 1555081692, 1996064986,
   2554220882, 2821834349, 2952996808, 3210313671, 3336571891, 3584528711,
   113926993, 338241895, 666307205, 773529912, 1294757372, 1396182291,
   1695183700, 1986661051, 2177026350, 2456956037, 2730485921, 2820302411,
   3259730800, 3345764771, 3516065817, 3600352804, 4094571909, 275423344,
   430227734, 506948616, 659060556, 883997877, 958139571, 1322822218,
   1537002063, 1747873779, 1955562222, 2024104815, 2227730452, 2361852424,
   2428436474, 2756734187, 3204031479, 3329325298]

/-- Eight-word hash state. -/
abbrev St := Nat × Nat × Nat × Nat × Nat × Nat × Nat × Nat

def initSt : St :=
  (1779033703, 3144134277, 1013904242, 2773480762,
   1359893119, 2600822924, 528734635, 1541459225)

def padMsg (msg : List Nat) : List Nat :=
  let l := msg.length
  let zeros := (64 - ((l + 9) % 64)) % 64
  msg ++ 0x80 :: List.replicate zeros 0 ++ natToBeBytes 8 (8 * l)

def toWordsGo : Nat → List Nat → List Nat
  | 0, _ => []
  | _, [] => []
  | f + 1, bs => beBytesToNat (bs.take 4) :: toWordsGo f (bs.drop 4)

def toWords (bs : List Nat) : List Nat := toWordsGo bs.length bs

def chunksGo : Nat → List Nat → List (List Nat)
  | 0, _ => []
  | _, [] => []
  | f + 1, bs => bs.take 64 :: chunksGo f (bs.drop 64)

def chunks (bs : List Nat) : List (List Nat) := chunksGo bs.length bs

def extendGo : Nat → List Nat → List Nat
  | 0, w => w
  | f + 1, w =>
    let t := w.length
    extendGo f (w ++ [m32 (ssig1 (w.getD (t - 2) 0) + w.getD (t - 7) 0 +
                           ssig0 (w.getD (t - 15) 0) + w.getD (t - 16) 0)])

def schedule (block : List Nat) : List Nat := extendGo 48 (toWords block)

def compressGo : List Nat → List Nat → St → St
  | [], _, st => st
  | _, [], st => st
  | k :: ks, w :: ws, (a, b, c, d, e, f, g, h) =>
    let t1 := m32 (h + bsig1 e + chFn e f g + k + w)
    let t2 := m32 (bsig0 a + majFn a b c)
    compressGo ks ws (m32 (t1 + t2), a, b, c, m32 (d + t1), e, f, g)

def addSt : St → St → St
  | (a, b, c, d, e, f, g, h), (a2, b2, c2, d2, e2, f2, g2, h2) =>
    (m32 (a + a2), m32 (b + b2), m32 (c + c2), m32 (d + d2),
     m32 (e + e2), m32 (f + f2), m32 (g + g2), m32 (h + h2))

def stBytes : St → List Nat
  | (a, b, c, d, e, f, g, h) =>
    natToBeBytes 4 a ++ natToBeBytes 4 b ++ natToBeBytes 4 c ++ natToBeBytes 4 d ++
    natToBeBytes 4 e ++ natToBeBytes 4 f ++ natToBeBytes 4 g ++ natToBeBytes 4 h

end Sha256

/-- SHA-256 digest of a byte list, as 32 bytes. -/
def sha256 (msg : List Nat) : List Nat :=
  Sha256.stBytes
    ((Sha256.chunks (Sha256.padMsg msg)).foldl
      (fun st b => Sha256.addSt st (Sha256.compressGo Sha256.kTable (Sha256.schedule b) st))
      Sha256.initSt)

/-! ## secp256k1 (model of the `k256` crate's curve capability)

Affine-coordinate arithmetic on the curve `y ^ 2 = x ^ 3 + 7` over the prime
field of order `pF`, with the point at infinity represented explicitly.
Modular inverses and square roots go through fuelled binary exponentiation so
that every definition reduces inside the kernel. -/

/-- The secp256k1 base field order. -/
def pF : Nat := 0xFFFFFFFFFFFFFFFFFFFFFFFFFFFFFFFFFFFFFFFFFFFFFFFFFFFFFFFEFFFFFC2F

/-- The secp256k1 group (scalar) order. -/
def nOrder : Nat := 0xFFFFFFFFFFFFFFFFFFFFFFFFFFFFFFFEBAAEDCE6AF48A03BBFD25E8CD0364141

/-- Fuelled binary exponentiation modulo `m`. -/
def powMod : Nat → Nat → Nat → Nat → Nat
  | 0, _, _, _ => 1
  | f + 1, b, e, m =>
    if e = 0 then 1 % m
    else
      let h := powMod f b (e / 2) m
      if e % 2 = 1 then h * h % m * b % m else h * h % m

/-- Inverse in the base field by Fermat's little theorem. -/
def finv (a : Nat) : Nat := powMod 300 a (pF - 2) pF

/-- Candidate square root in the base field (`pF % 4 = 3`). -/
def fsqrt (a : Nat) : Nat := powMod 300 a ((pF + 1) / 4) pF

/-- An affine secp256k1 point or the point at infinity. -/
inductive Point where
  | inf : Point
  | mk (x y : Nat) : Point
deriving DecidableEq

/-- The curve equation, for points kept reduced modulo `pF`. -/
def Point.onCurve : Point → Prop
  | .inf => True
  | .mk x y => x < pF ∧ y < pF ∧ (y * y) % pF = (x * x % pF * x + 7) % pF

instance (P : Point) : Decidable P.onCurve := by
  cases P <;> simp [Point.onCurve] <;> infer_instance

/-- Group addition of affine points (complete by case analysis). -/
def pointAdd : Point → Point → Point
  | .inf, q => q
  | p, .inf => p
  | .mk x1 y1, .mk x2 y2 =>
    if x1 = x2 then
      if (y1 + y2) % pF = 0 then .inf
      else
        let l := 3 * x1 * x1 % pF * finv (2 * y1 % pF) % pF
        let x3 := (l * l + 2 * pF - x1 - x2) % pF
        .mk x3 ((l * (x1 + pF - x3) + pF * pF - y1) % pF)
    else
      let l := (y2 + pF - y1) * finv ((x2 + pF - x1) % pF) % pF
      let x3 := (l * l + 2 * pF - x1 - x2) % pF
      .mk x3 ((l * (x1 + pF - x3) + pF * pF - y1) % pF)

/-- Fuelled double-and-add ladder: binary expansion of the scalar, least
significant bit first. -/
def mulGo : Nat → Nat → Point → Point → Point
  | 0, _, _, acc => acc
  | f + 1, k, addend, acc =>
    if k = 0 then acc
    else
      mulGo f (k / 2) (pointAdd addend addend)
        (if k % 2 = 1 then pointAdd acc addend else acc)

/-- Scalar multiplication `k * P` on secp256k1. -/
def mulScalar (k : Nat) (p : Point) : Point := mulGo 256 (k % nOrder) p .inf

/-- The secp256k1 base point. -/
def basePoint : Point :=
  .mk 0x79BE667EF9DCBBAC55A06295CE870B07029BFCDB2DCE28D959F2815B16F81798
     0x483ADA7726A3C4655DA4FBFC0E1108A8FD17B448A68554199C47D08FFB10D4B8

/-- SEC1 decoding of a byte string into a point, modelling
`k256::PublicKey::from_sec1_bytes`: a 33-byte compressed encoding (tag `0x02`
or `0x03`) or a 65-byte uncompressed encoding (tag `0x04`); the identity and
every other shape are rejected. -/
def fromSec1Bytes (bs : List Nat) : Option Point :=
  match bs with
  | b :: rest =>
    if (b = 2 ∨ b = 3) ∧ rest.length = 32 then
      let x := beBytesToNat rest
      if x < pF then
        let a := (x * x % pF * x + 7) % pF
        let y := fsqrt a
        if y * y % pF = a then
          some (.mk x (if y % 2 = b % 2 then y else (pF - y) % pF))
        else none
      else none
    else if b = 4 ∧ rest.length = 64 then
      let x := beBytesToNat (rest.take 32)
      let y := beBytesToNat (rest.drop 32)
      if x < pF ∧ y < pF ∧ y * y % pF = (x * x % pF * x + 7) % pF ∧ ¬(x = 0 ∧ y = 0) then
        some (.mk x y)
      else none
    else none
  | [] => none

/-- Conversion of a projective sum or product back into a `PublicKey`,
modelling `PublicKey::try_from(ProjectivePoint)`: fails exactly on the
identity point. -/
def toPublicKey (p : Point) : Option Point :=
  match p with
  | .inf => none
  | .mk x y => some (.mk x y)

/-- A valid `k256::SecretKey` scalar: nonzero and below the group order. -/
def IsValidScalar (k : Nat) : Prop := 1 ≤ k ∧ k < nOrder

/-! ## Error taxonomy (from `src/error.rs`)

The Rust `Error` enum has three variants; `TokenV3` optionally boxes an
arbitrary underlying cause, modelled here as the closed sum of the causes
that can actually flow into it. -/

/-- Decoding errors of the `hex` crate (`hex::FromHexError`). -/
inductive FromHexError where
  | invalidHexCharacter (c : Char) (index : Nat)
  | oddLength
deriving DecidableEq

/-- Decoding errors of the `base64` crate's strict padded engine. -/
inductive B64Error where
  | invalidByte (index : Nat)
  | invalidLength
  | invalidPadding
  | invalidLastSymbol
deriving DecidableEq

/-- Error of `std::str::from_utf8`, recording the valid byte count. -/
inductive Utf8Error where
  | invalid (validUpTo : Nat)
deriving DecidableEq

/-- Errors surfaced by `serde_json::from_str::<Token>` in this model:
either the text is not a JSON document of the modelled grammar, or the
parsed document does not match the Token structure. -/
inductive JsonError where
  | parseFailure
  | missingField (f : String)
  | duplicateField (f : String)
  | wrongType
  | badNumber
  | badHex
  | badUrl
deriving DecidableEq

/-- The boxed cause inside `Error::TokenV3`. -/
inductive TokenCause where
  | b64 (e : B64Error)
  | utf8 (e : Utf8Error)
  | json (e : JsonError)
deriving DecidableEq

/-- The crate's `Error` enum. -/
inductive Error where
  | tokenV3 (cause : Option TokenCause)
  | eccArithmetic
  | hexConversion (e : FromHexError)
deriving DecidableEq

/-! ## Hex decoding (model of `hex::decode`) -/

/-- Value of one hex digit, accepting both cases. -/
def hexVal (c : Char) : Option Nat :=
  if 48 ≤ c.toNat ∧ c.toNat ≤ 57 then some (c.toNat - 48)
  else if 97 ≤ c.toNat ∧ c.toNat ≤ 102 then some (c.toNat - 87)
  else if 65 ≤ c.toNat ∧ c.toNat ≤ 70 then some (c.toNat - 55)
  else none

/-- Pairwise hex decoding, tracking the character index for error reports. -/
def hexDecodeGo : Nat → List Char → Except FromHexError (List Nat)
  | _, [] => .ok []
  | _, [_] => .error .oddLength
  | i, c1 :: c2 :: rest =>
    match hexVal c1 with
    | none => .error (.invalidHexCharacter c1 i)
    | some h =>
      match hexVal c2 with
      | none => .error (.invalidHexCharacter c2 (i + 1))
      | some l =>
        match hexDecodeGo (i + 2) rest with
        | .ok bs => .ok ((h * 16 + l) :: bs)
        | .error e => .error e

/-- The `hex` crate's `decode`: the length parity is checked first, then the
characters left to right. -/
def hexDecode (s : String) : Except FromHexError (List Nat) :=
  if s.data.length % 2 = 1 then .error .oddLength else hexDecodeGo 0 s.data

/-- Decoded bytes of a hex string literal, for stating reference vectors. -/
def hexBytesD (s : String) : List Nat :=
  match hexDecode s with
  | .ok bs => bs
  | .error _ => []

/-! ## The crypto layer (from `src/crypto.rs`) -/

/-- A token holder's secret: an owned byte string. -/
structure Secret where
  bytes : List Nat
deriving DecidableEq

/-- The retry loop body of `Secret::hash_to_curve`, with explicit fuel for
the unbounded Rust `loop`: try `0x02 ‖ digest` as a compressed point and
rehash the digest on failure. -/
def hashLoop : Nat → List Nat → Option Point
  | 0, _ => none
  | f + 1, s =>
    match fromSec1Bytes (2 :: s) with
    | some pk => some pk
    | none => hashLoop f (sha256 s)

/-- The source's `Secret::hash_to_curve`: digest the secret bytes once, then
run the retry loop. -/
def Secret.hash_to_curve (fuel : Nat) (s : Secret) : Option Point :=
  hashLoop fuel (sha256 s.bytes)

/-- Iterated SHA-256: `iterSha i d` is the i-th rehash of `d`. -/
def iterSha : Nat → List Nat → List Nat
  | 0, d => d
  | i + 1, d => iterSha i (sha256 d)

/-- Algorithm of the spec, stated independently of the loop: with
`d_0 = SHA-256(s)` and `d_{i+1} = SHA-256(d_i)`, return the point parsed
from `0x02 ‖ d_i` for the least valid index `i`. -/
def specHashToCurve (fuel : Nat) (s : Secret) : Option Point :=
  (List.range fuel).findSome? (fun i => fromSec1Bytes (2 :: iterSha i (sha256 s.bytes)))

/-- The crypto-layer blinded message: a validated curve point. -/
structure BlindedMessage where
  pt : Point
deriving DecidableEq

/-- The crypto-layer blinded key (the mint's blind signature). -/
structure BlindedKey where
  pt : Point
deriving DecidableEq

/-- The source's `Secret::from_hex`. -/
def Secret.from_hex (data : String) : Except Error Secret :=
  match hexDecode data with
  | .ok bs => .ok ⟨bs⟩
  | .error e => .error (.hexConversion e)

/-- The source's `Secret::blinded_message`: hash self to a point, add the
blinding scalar's public point, and re-encode; `None` only on fuel
exhaustion of the hash-to-curve loop. -/
def Secret.blinded_message (fuel : Nat) (s : Secret) (r : Nat) :
    Option (Except Error BlindedMessage) :=
  (s.hash_to_curve fuel).map fun hp =>
    match toPublicKey (pointAdd hp (mulScalar r basePoint)) with
    | some q => .ok ⟨q⟩
    | none => .error .eccArithmetic

/-- The source's `BlindedMessage::blinded_key`: multiply the wrapped point by
the mint's scalar and re-encode. -/
def BlindedMessage.blinded_key (bm : BlindedMessage) (k : Nat) : Except Error BlindedKey :=
  match toPublicKey (mulScalar k bm.pt) with
  | some q => .ok ⟨q⟩
  | none => .error .eccArithmetic

/-- The source's `BlindedMessage::from_hex`. -/
def BlindedMessage.from_hex (data : String) : Except Error BlindedMessage :=
  match hexDecode data with
  | .error e => .error (.hexConversion e)
  | .ok bs =>
    match fromSec1Bytes bs with
    | some p => .ok ⟨p⟩
    | none => .error .eccArithmetic

/-- The source's `BlindedKey::from_hex`. -/
def BlindedKey.from_hex (data : String) : Except Error BlindedKey :=
  match hexDecode data with
  | .error e => .error (.hexConversion e)
  | .ok bs =>
    match fromSec1Bytes bs with
    | some p => .ok ⟨p⟩
    | none => .error .eccArithmetic

/-- ASCII bytes of a string, for stating the UTF-8 reference vectors. -/
def asciiBytes (s : String) : List Nat := s.data.map Char.toNat

/-! ## JSON documents (model of the `serde_json` value layer)

The wire model of `src/models.rs` serializes through `serde_json`.  The
parser below accepts the JSON grammar restricted to non-negative integer
numbers (the only numbers the Token shape uses; other numeric forms fail the
parse, which lands in the same `TokenV3`-wrapped JSON-error class as
serde's own rejection of them for this target type). -/

inductive Json where
  | null : Json
  | bool (b : Bool) : Json
  | num (n : Nat) : Json
  | str (s : String) : Json
  | arr (elems : List Json) : Json
  | obj (fields : List (String × Json)) : Json

/-- Lowercase hex digit character. -/
def hexDigitChar (n : Nat) : Char :=
  if n < 10 then Char.ofNat (48 + n) else Char.ofNat (87 + n)

/-- The `serde_json` string escape for one character: quote and backslash
get two-character escapes, control characters get the five short escapes or
`\u00XX`, everything else is emitted raw. -/
def escChar (c : Char) : List Char :=
  if c = '"' then ['\\', '"']
  else if c = '\\' then ['\\', '\\']
  else if c.toNat < 32 then
    if c.toNat = 8 then ['\\', 'b']
    else if c.toNat = 9 then ['\\', 't']
    else if c.toNat = 10 then ['\\', 'n']
    else if c.toNat = 12 then ['\\', 'f']
    else if c.toNat = 13 then ['\\', 'r']
    else ['\\', 'u', '0', '0', hexDigitChar (c.toNat / 16), hexDigitChar (c.toNat % 16)]
  else [c]

/-- A JSON string literal as `serde_json` prints it. -/
def printStr (s : String) : List Char :=
  '"' :: s.data.flatMap escChar ++ ['"']

def digitChar (n : Nat) : Char := Char.ofNat (48 + n)

/-- Decimal digits of `n`, most significant first, with fuel. -/
def natDigits : Nat → Nat → List Char
  | 0, _ => []
  | f + 1, n => if n < 10 then [digitChar n] else natDigits f (n / 10) ++ [digitChar (n % 10)]

/-- Decimal printing of a natural number (ample fuel for `u64` values). -/
def printNat (n : Nat) : List Char := natDigits 30 n

/-- Lowercase hex encoding of a byte list (model of `hex::encode`, used by
the `hex::serde` field serializer). -/
def hexEncode (bs : List Nat) : List Char :=
  bs.flatMap (fun b => [hexDigitChar (b / 16), hexDigitChar (b % 16)])

/-- Comma-join pre-printed items. -/
def joinComma : List (List Char) → List Char
  | [] => []
  | [x] => x
  | x :: xs => x ++ ',' :: joinComma xs

/-- Fuelled generic printer for JSON documents, used to state the spec-side
serialization shape (a fixed fuel suffices for the statically bounded depth
of the Token document). -/
def printJsonF : Nat → Json → List Char
  | 0, _ => []
  | _ + 1, .null => ['n', 'u', 'l', 'l']
  | _ + 1, .bool true => ['t', 'r', 'u', 'e']
  | _ + 1, .bool false => ['f', 'a', 'l', 's', 'e']
  | _ + 1, .num n => printNat n
  | _ + 1, .str s => printStr s
  | f + 1, .arr es => '[' :: joinComma (es.map (printJsonF f)) ++ [']']
  | f + 1, .obj fs =>
    '{' :: joinComma (fs.map (fun kv => printStr kv.1 ++ ':' :: printJsonF f kv.2)) ++ ['}']

/-! ## JSON parsing (model of the `serde_json` text layer) -/

def isWs (c : Char) : Bool := c = ' ' || c = '\t' || c = '\n' || c = '\r'

def skipWs : List Char → List Char
  | [] => []
  | c :: rest => if isWs c then skipWs rest else c :: rest

def isDigit (c : Char) : Bool := 48 ≤ c.toNat && c.toNat ≤ 57

/-- Four hex digits of a `\uXXXX` escape. -/
def parseHex4 (cs : List Char) : Option (Nat × List Char) :=
  match cs with
  | a :: b :: c :: d :: rest =>
    match hexVal a, hexVal b, hexVal c, hexVal d with
    | some va, some vb, some vc, some vd => some (va * 4096 + vb * 256 + vc * 16 + vd, rest)
    | _, _, _, _ => none
  | _ => none

/-- JSON string body after the opening quote: unescape until the closing
quote, rejecting raw control characters and lone surrogates. -/
def parseStrGo : Nat → List Char → List Char → Option (String × List Char)
  | 0, _, _ => none
  | _ + 1, [], _ => none
  | f + 1, c :: rest, acc =>
    if c = '"' then some (⟨acc.reverse⟩, rest)
    else if c = '\\' then
      match rest with
      | [] => none
      | e :: rest2 =>
        if e = '"' then parseStrGo f rest2 ('"' :: acc)
        else if e = '\\' then parseStrGo f rest2 ('\\' :: acc)
        else if e = '/' then parseStrGo f rest2 ('/' :: acc)
        else if e = 'b' then parseStrGo f rest2 (Char.ofNat 8 :: acc)
        else if e = 'f' then parseStrGo f rest2 (Char.ofNat 12 :: acc)
        else if e = 'n' then parseStrGo f rest2 (Char.ofNat 10 :: acc)
        else if e = 'r' then parseStrGo f rest2 (Char.ofNat 13 :: acc)
        else if e = 't' then parseStrGo f rest2 (Char.ofNat 9 :: acc)
        else if e = 'u' then
          match parseHex4 rest2 with
          | some (n, rest3) =>
            if n < 0xD800 ∨ 0xE000 ≤ n then parseStrGo f rest3 (Char.ofNat n :: acc)
            else if n < 0xDC00 then
              match rest3 with
              | '\\' :: 'u' :: rest4 =>
                match parseHex4 rest4 with
                | some (m, rest5) =>
                  if 0xDC00 ≤ m ∧ m < 0xE000 then
                    parseStrGo f rest5
                      (Char.ofNat (0x10000 + (n - 0xD800) * 1024 + (m - 0xDC00)) :: acc)
                  else none
                | none => none
              | _ => none
            else none
          | none => none
        else none
    else if c.toNat < 32 then none
    else parseStrGo f rest (c :: acc)

/-- JSON string body parser entered with fuel sufficient for its input. -/
def parseStr (cs : List Char) : Option (String × List Char) :=
  parseStrGo (cs.length + 1) cs []

def takeDigits (cs : List Char) : List Char × List Char := cs.span isDigit

def digitsToNat (ds : List Char) : Nat := ds.foldl (fun a c => a * 10 + (c.toNat - 48)) 0

/-- Non-negative JSON integer with the no-leading-zero rule. -/
def parseNum : List Char → Option (Nat × List Char)
  | [] => none
  | c :: rest =>
    if c = '0' then some (0, rest)
    else if isDigit c then
      let p := takeDigits rest
      some (digitsToNat (c :: p.1), p.2)
    else none

/-- Parser modes: a single value, array elements after `[`, object fields
after `{` (both in their non-empty form). -/
inductive PMode where
  | val : PMode
  | elems : PMode
  | fields : PMode

/-- Parser results, one constructor per mode. -/
inductive PRes where
  | val : Json → List Char → PRes
  | elems : List Json → List Char → PRes
  | fields : List (String × Json) → List Char → PRes

/-- Recursive-descent JSON parser with fuel (the Rust library bounds
recursion by a depth limit instead; no claim depends on inputs deep enough
to distinguish the two). -/
def parseGo : Nat → PMode → List Char → Option PRes
  | 0, _, _ => none
  | f + 1, .val, cs =>
    match skipWs cs with
    | [] => none
    | c :: rest =>
      if c = '"' then
        match parseStr rest with
        | some (s, rest2) => some (.val (.str s) rest2)
        | none => none
      else if c = 'n' then
        match rest with
        | 'u' :: 'l' :: 'l' :: rest2 => some (.val .null rest2)
        | _ => none
      else if c = 't' then
        match rest with
        | 'r' :: 'u' :: 'e' :: rest2 => some (.val (.bool true) rest2)
        | _ => none
      else if c = 'f' then
        match rest with
        | 'a' :: 'l' :: 's' :: 'e' :: rest2 => some (.val (.bool false) rest2)
        | _ => none
      else if c = '[' then
        match skipWs rest with
        | [] => none
        | c2 :: rest2 =>
          if c2 = ']' then some (.val (.arr []) rest2)
          else
            match parseGo f .elems (c2 :: rest2) with
            | some (.elems vs rest3) => some (.val (.arr vs) rest3)
            | _ => none
      else if c = '{' then
        match skipWs rest with
        | [] => none
        | c2 :: rest2 =>
          if c2 = '}' then some (.val (.obj []) rest2)
          else
            match parseGo f .fields (c2 :: rest2) with
            | some (.fields fs rest3) => some (.val (.obj fs) rest3)
            | _ => none
      else
        match parseNum (c :: rest) with
        | some (n, rest2) => some (.val (.num n) rest2)
        | none => none
  | f + 1, .elems, cs =>
    match parseGo f .val cs with
    | some (.val v rest) =>
      match skipWs rest with
      | ',' :: rest2 =>
        match parseGo f .elems rest2 with
        | some (.elems vs rest3) => some (.elems (v :: vs) rest3)
        | _ => none
      | ']' :: rest2 => some (.elems [v] rest2)
      | _ => none
    | _ => none
  | f + 1, .fields, cs =>
    match skipWs cs with
    | [] => none
    | c :: rest =>
      if c = '"' then
        match parseStr rest with
        | some (k, rest2) =>
          match skipWs rest2 with
          | ':' :: rest3 =>
            match parseGo f .val rest3 with
            | some (.val v rest4) =>
              match skipWs rest4 with
              | ',' :: rest5 =>
                match parseGo f .fields rest5 with
                | some (.fields fs rest6) => some (.fields ((k, v) :: fs) rest6)
                | _ => none
              | '}' :: rest5 => some (.fields [(k, v)] rest5)
              | _ => none
            | _ => none
          | _ => none
        | none => none
      else none

/-- Parse one JSON value from the front of the text. -/
def parseJson (cs : List Char) : Option (Json × List Char) :=
  match parseGo (2 * cs.length + 2) .val cs with
  | some (.val v rest) => some (v, rest)
  | _ => none

/-- Model of `serde_json::from_str::<T>`: parse a full document (trailing
whitespace only) and decode it with the target type's field decoder. -/
def jsonDecode {α : Type} (dec : Json → Except JsonError α) (s : String) :
    Except JsonError α :=
  match parseJson s.data with
  | some (j, rest) => if skipWs rest = [] then dec j else .error .parseFailure
  | none => .error .parseFailure

/-! ## Base64url with padding (model of `base64::engine::general_purpose::URL_SAFE`) -/

/-- The url-safe alphabet character of a six-bit value. -/
def b64Char (n : Nat) : Char :=
  if n < 26 then Char.ofNat (65 + n)
  else if n < 52 then Char.ofNat (97 + (n - 26))
  else if n < 62 then Char.ofNat (48 + (n - 52))
  else if n = 62 then '-'
  else '_'

/-- Six-bit value of an alphabet character. -/
def b64Val (c : Char) : Option Nat :=
  if 65 ≤ c.toNat ∧ c.toNat ≤ 90 then some (c.toNat - 65)
  else if 97 ≤ c.toNat ∧ c.toNat ≤ 122 then some (c.toNat - 97 + 26)
  else if 48 ≤ c.toNat ∧ c.toNat ≤ 57 then some (c.toNat - 48 + 52)
  else if c = '-' then some 62
  else if c = '_' then some 63
  else none

def b64EncodeGo : Nat → List Nat → List Char
  | _, [] => []
  | 0, _ => []
  | _ + 1, [a] => [b64Char (a / 4), b64Char (a % 4 * 16), '=', '=']
  | _ + 1, [a, b] => [b64Char (a / 4), b64Char (a % 4 * 16 + b / 16), b64Char (b % 16 * 4), '=']
  | f + 1, a :: b :: c :: rest =>
    b64Char (a / 4) :: b64Char (a % 4 * 16 + b / 16) :: b64Char (b % 16 * 4 + c / 64) ::
      b64Char (c % 64) :: b64EncodeGo f rest

/-- Padded base64url encoding of a byte list. -/
def b64Encode (bs : List Nat) : String := ⟨b64EncodeGo bs.length bs⟩

/-- Strict decoding: four-character groups, canonical padding only in the
final group, no non-zero trailing bits. -/
def b64DecodeGo : Nat → Nat → List Char → Except B64Error (List Nat)
  | _, _, [] => .ok []
  | 0, _, _ => .error .invalidLength
  | f + 1, pos, c0 :: c1 :: c2 :: c3 :: rest =>
    match b64Val c0 with
    | none => .error (.invalidByte pos)
    | some v0 =>
      match b64Val c1 with
      | none => .error (.invalidByte (pos + 1))
      | some v1 =>
        if c2 = '=' then
          if c3 = '=' ∧ rest = [] then
            if v1 % 16 = 0 then .ok [v0 * 4 + v1 / 16] else .error .invalidLastSymbol
          else .error .invalidPadding
        else
          match b64Val c2 with
          | none => .error (.invalidByte (pos + 2))
          | some v2 =>
            if c3 = '=' then
              if rest = [] then
                if v2 % 4 = 0 then .ok [v0 * 4 + v1 / 16, v1 % 16 * 16 + v2 / 4]
                else .error .invalidLastSymbol
              else .error .invalidPadding
            else
              match b64Val c3 with
              | none => .error (.invalidByte (pos + 3))
              | some v3 =>
                match b64DecodeGo f (pos + 4) rest with
                | .ok tl =>
                  .ok ((v0 * 4 + v1 / 16) :: (v1 % 16 * 16 + v2 / 4) :: (v2 % 4 * 64 + v3) :: tl)
                | .error e => .error e
  | _ + 1, _, _ => .error .invalidLength

/-- Padded base64url decoding of a string. -/
def b64Decode (s : String) : Except B64Error (List Nat) :=
  b64DecodeGo s.data.length 0 s.data

/-! ## UTF-8 (models of `str::as_bytes` and `std::str::from_utf8`) -/

/-- UTF-8 encoding of one Unicode scalar value. -/
def utf8EncodeChar (n : Nat) : List Nat :=
  if n < 0x80 then [n]
  else if n < 0x800 then [0xC0 + n / 64, 0x80 + n % 64]
  else if n < 0x10000 then [0xE0 + n / 4096, 0x80 + n / 64 % 64, 0x80 + n % 64]
  else [0xF0 + n / 262144, 0x80 + n / 4096 % 64, 0x80 + n / 64 % 64, 0x80 + n % 64]

/-- UTF-8 bytes of a string. -/
def utf8Encode (s : String) : List Nat :=
  s.data.flatMap (fun c => utf8EncodeChar c.toNat)

/-- One strict UTF-8 decoding step: the scalar value at the front of the
byte list, the number of bytes it occupies, and the remaining bytes.
Rejects bad leading bytes, truncated or malformed continuations, overlong
forms, surrogates and out-of-range values. -/
def utf8DecodeStep (pos : Nat) : List Nat → Except Utf8Error (Nat × Nat × List Nat)
  | [] => .error (.invalid pos)
  | b0 :: rest =>
    if b0 < 0x80 then .ok (b0, 1, rest)
    else if 0xC2 ≤ b0 ∧ b0 ≤ 0xDF then
      match rest with
      | b1 :: rest2 =>
        if 0x80 ≤ b1 ∧ b1 ≤ 0xBF then .ok ((b0 - 0xC0) * 64 + (b1 - 0x80), 2, rest2)
        else .error (.invalid pos)
      | [] => .error (.invalid pos)
    else if 0xE0 ≤ b0 ∧ b0 ≤ 0xEF then
      match rest with
      | b1 :: b2 :: rest2 =>
        if (0x80 ≤ b1 ∧ b1 ≤ 0xBF) ∧ (0x80 ≤ b2 ∧ b2 ≤ 0xBF) then
          let n := (b0 - 0xE0) * 4096 + (b1 - 0x80) * 64 + (b2 - 0x80)
          if 0x800 ≤ n ∧ ¬(0xD800 ≤ n ∧ n ≤ 0xDFFF) then .ok (n, 3, rest2)
          else .error (.invalid pos)
        else .error (.invalid pos)
      | _ => .error (.invalid pos)
    else if 0xF0 ≤ b0 ∧ b0 ≤ 0xF4 then
      match rest with
      | b1 :: b2 :: b3 :: rest2 =>
        if (0x80 ≤ b1 ∧ b1 ≤ 0xBF) ∧ (0x80 ≤ b2 ∧ b2 ≤ 0xBF) ∧ (0x80 ≤ b3 ∧ b3 ≤ 0xBF) then
          let n := (b0 - 0xF0) * 262144 + (b1 - 0x80) * 4096 + (b2 - 0x80) * 64 + (b3 - 0x80)
          if 0x10000 ≤ n ∧ n ≤ 0x10FFFF then .ok (n, 4, rest2)
          else .error (.invalid pos)
        else .error (.invalid pos)
      | _ => .error (.invalid pos)
    else .error (.invalid pos)

/-- Strict UTF-8 decoding with fuel, one unit per decoded character. -/
def utf8DecodeGo : Nat -> Nat -> List Nat -> Except Utf8Error (List Char)
  | _, _, [] => .ok []
  | 0, pos, _ => .error (.invalid pos)
  | f + 1, pos, bs =>
    match utf8DecodeStep pos bs with
    | .ok (n, size, rest) =>
      match utf8DecodeGo f (pos + size) rest with
      | .ok cs => .ok (Char.ofNat n :: cs)
      | .error e => .error e
    | .error e => .error e

/-- Model of `std::str::from_utf8`. -/
def utf8Decode (bs : List Nat) : Except Utf8Error String :=
  match utf8DecodeGo bs.length 0 bs with
  | .ok cs => .ok ⟨cs⟩
  | .error e => .error e

/-! ## The wire model (from `src/models.rs`)

The `url::Url` dependency is modelled from the spec: a `WireUrl` wraps the
URL's serialized text; parsing is a validity test returning the text
unchanged, which captures the crate's guarantee that re-parsing a
serialized URL yields the same value (WHATWG normalization of arbitrary
input text is not modelled). -/

/-- Model of `url::Url`. -/
structure WireUrl where
  raw : String
deriving DecidableEq

/-- Modelled from the spec: `url::Url::parse` as consumed by serde
deserialization of the `mint` field; accepts text with a scheme separator
and returns it unchanged. -/
def WireUrl.parse (s : String) : Option WireUrl :=
  if s.data.contains ':' then some ⟨s⟩ else none

/-- A URL value that the modelled parser reproduces exactly: the invariant
every `url::Url` held in memory satisfies. -/
def WireUrl.Wf (u : WireUrl) : Prop := WireUrl.parse u.raw = some u

namespace Models

/-- Wire-model `BlindedMessage` (field `B_` hex-encoded on the wire). -/
structure BlindedMessage where
  amount : Nat
  blinded_message : List Nat
deriving DecidableEq

/-- Wire-model `BlindedSignature` (field `C_` hex-encoded on the wire). -/
structure BlindedSignature where
  id : Option String
  amount : Nat
  blinded_key : List Nat
deriving DecidableEq

/-- Wire-model `Proof` (field `C` hex-encoded on the wire). -/
structure Proof where
  id : Option String
  amount : Nat
  secret : String
  unblinded_key : List Nat
deriving DecidableEq

/-- One mint's proof bundle; the Rust `Proofs` newtype is serde-transparent,
so it is modelled as the plain list it wraps. -/
structure MintToken where
  mint : WireUrl
  proofs : List Proof
deriving DecidableEq

/-- The top-level token document. -/
structure Token where
  token : List MintToken
  memo : Option String
deriving DecidableEq

/-! ### Serializers, one per struct, mirroring the derived `Serialize` impls
(fields in declaration order, `Option` as `null`, byte vectors as lowercase
hex strings). -/

def printOptStr : Option String → List Char
  | none => ['n', 'u', 'l', 'l']
  | some s => printStr s

def Proof.printChars (p : Proof) : List Char :=
  '{' :: (printStr "id" ++ ':' :: printOptStr p.id)
    ++ ',' :: (printStr "amount" ++ ':' :: printNat p.amount)
    ++ ',' :: (printStr "secret" ++ ':' :: printStr p.secret)
    ++ ',' :: (printStr "C" ++ ':' :: printStr ⟨hexEncode p.unblinded_key⟩)
    ++ ['}']

def printArr (elems : List (List Char)) : List Char :=
  '[' :: joinComma elems ++ [']']

def MintToken.printChars (m : MintToken) : List Char :=
  '{' :: (printStr "mint" ++ ':' :: printStr m.mint.raw)
    ++ ',' :: (printStr "proofs" ++ ':' :: printArr (m.proofs.map Proof.printChars))
    ++ ['}']

def Token.printChars (t : Token) : List Char :=
  '{' :: (printStr "token" ++ ':' :: printArr (t.token.map MintToken.printChars))
    ++ ',' :: (printStr "memo" ++ ':' :: printOptStr t.memo)
    ++ ['}']

/-! ### Deserializers, mirroring the derived `Deserialize` impls: fields may
come in any order, unknown fields are ignored, duplicate known fields are
rejected, missing `Option` fields default to `None`, `null` reads as
`None`. -/

def getField (fs : List (String × Json)) (k : String) : Option Json :=
  (fs.find? (fun p => p.1 == k)).map Prod.snd

def countKey (fs : List (String × Json)) (k : String) : Nat :=
  (fs.filter (fun p => p.1 == k)).length

def decodeOptStr : Option Json → Except JsonError (Option String)
  | none => .ok none
  | some .null => .ok none
  | some (.str s) => .ok (some s)
  | some _ => .error .wrongType

def decodeU64 (name : String) : Option Json → Except JsonError Nat
  | none => .error (.missingField name)
  | some (.num n) => if n < 18446744073709551616 then .ok n else .error .badNumber
  | some _ => .error .wrongType

def decodeStr (name : String) : Option Json → Except JsonError String
  | none => .error (.missingField name)
  | some (.str s) => .ok s
  | some _ => .error .wrongType

def decodeHexBytes (name : String) : Option Json → Except JsonError (List Nat)
  | none => .error (.missingField name)
  | some (.str h) =>
    match hexDecode h with
    | .ok bs => .ok bs
    | .error _ => .error .badHex
  | some _ => .error .wrongType

def Proof.fromJson (j : Json) : Except JsonError Proof :=
  match j with
  | .obj fs =>
    if 2 ≤ countKey fs "id" then .error (.duplicateField "id")
    else if 2 ≤ countKey fs "amount" then .error (.duplicateField "amount")
    else if 2 ≤ countKey fs "secret" then .error (.duplicateField "secret")
    else if 2 ≤ countKey fs "C" then .error (.duplicateField "C")
    else do
      let i ← decodeOptStr (getField fs "id")
      let a ← decodeU64 "amount" (getField fs "amount")
      let s ← decodeStr "secret" (getField fs "secret")
      let c ← decodeHexBytes "C" (getField fs "C")
      .ok ⟨i, a, s, c⟩
  | _ => .error .wrongType

def BlindedMessage.fromJson (j : Json) : Except JsonError BlindedMessage :=
  match j with
  | .obj fs =>
    if 2 ≤ countKey fs "amount" then .error (.duplicateField "amount")
    else if 2 ≤ countKey fs "B_" then .error (.duplicateField "B_")
    else do
      let a ← decodeU64 "amount" (getField fs "amount")
      let b ← decodeHexBytes "B_" (getField fs "B_")
      .ok ⟨a, b⟩
  | _ => .error .wrongType

def BlindedSignature.fromJson (j : Json) : Except JsonError BlindedSignature :=
  match j with
  | .obj fs =>
    if 2 ≤ countKey fs "id" then .error (.duplicateField "id")
    else if 2 ≤ countKey fs "amount" then .error (.duplicateField "amount")
    else if 2 ≤ countKey fs "C_" then .error (.duplicateField "C_")
    else do
      let i ← decodeOptStr (getField fs "id")
      let a ← decodeU64 "amount" (getField fs "amount")
      let c ← decodeHexBytes "C_" (getField fs "C_")
      .ok ⟨i, a, c⟩
  | _ => .error .wrongType

def decodeListGo {α : Type} (dec : Json → Except JsonError α) :
    List Json → Except JsonError (List α)
  | [] => .ok []
  | j :: js => do
    let a ← dec j
    let as ← decodeListGo dec js
    .ok (a :: as)

def MintToken.fromJson (j : Json) : Except JsonError MintToken :=
  match j with
  | .obj fs =>
    if 2 ≤ countKey fs "mint" then .error (.duplicateField "mint")
    else if 2 ≤ countKey fs "proofs" then .error (.duplicateField "proofs")
    else do
      let u ←
        match getField fs "mint" with
        | none => .error (.missingField "mint")
        | some (.str s) =>
          match WireUrl.parse s with
          | some u => .ok u
          | none => .error .badUrl
        | some _ => .error .wrongType
      let ps ←
        match getField fs "proofs" with
        | none => .error (.missingField "proofs")
        | some (.arr js) => decodeListGo Proof.fromJson js
        | some _ => .error .wrongType
      .ok ⟨u, ps⟩
  | _ => .error .wrongType

def Token.fromJson (j : Json) : Except JsonError Token :=
  match j with
  | .obj fs =>
    if 2 ≤ countKey fs "token" then .error (.duplicateField "token")
    else if 2 ≤ countKey fs "memo" then .error (.duplicateField "memo")
    else do
      let ts ←
        match getField fs "token" with
        | none => .error (.missingField "token")
        | some (.arr js) => decodeListGo MintToken.fromJson js
        | some _ => .error .wrongType
      let m ← decodeOptStr (getField fs "memo")
      .ok ⟨ts, m⟩
  | _ => .error .wrongType

/-! ### Well-formedness invariants of in-memory wire values: `u64` bounds on
amounts, byte bounds on `Vec<u8>` fields, and the `url::Url` reparse
guarantee. -/

def Proof.Wf (p : Proof) : Prop :=
  p.amount < 18446744073709551616 ∧ ∀ b ∈ p.unblinded_key, b < 256

def MintToken.Wf (m : MintToken) : Prop :=
  WireUrl.Wf m.mint ∧ ∀ p ∈ m.proofs, p.Wf

def Token.Wf (t : Token) : Prop :=
  ∀ m ∈ t.token, m.Wf

/-! ### The token codec (`Token::serialize` / `Token::deserialize`) -/

/-- The source's `Token::serialize`: JSON-encode, base64url-encode the UTF-8
bytes, prepend the `cashuA` tag (JSON encoding of this shape cannot fail, so
the `Result` is always `Ok`). -/
def Token.serialize (t : Token) : Except Error String :=
  .ok ("cashuA" ++ b64Encode (utf8Encode ⟨Token.printChars t⟩))

/-- Model of `str::strip_prefix` for the literal `cashuA` tag. -/
def stripCashuA (s : String) : Option String :=
  match s.data with
  | 'c' :: 'a' :: 's' :: 'h' :: 'u' :: 'A' :: rest => some ⟨rest⟩
  | _ => none

/-- Model of `serde_json::from_str::<Token>`. -/
def jsonToToken (s : String) : Except JsonError Token :=
  jsonDecode Token.fromJson s

/-- The source's `Token::deserialize`: strip the tag, base64url-decode,
re-read as UTF-8, JSON-decode, wrapping each stage's failure in
`Error::TokenV3`. -/
def Token.deserialize (s : String) : Except Error Token :=
  match stripCashuA s with
  | none => .error (.tokenV3 none)
  | some rest =>
    match b64Decode rest with
    | .error e => .error (.tokenV3 (some (.b64 e)))
    | .ok bytes =>
      match utf8Decode bytes with
      | .error e => .error (.tokenV3 (some (.utf8 e)))
      | .ok text =>
        match jsonToToken text with
        | .error e => .error (.tokenV3 (some (.json e)))
        | .ok tok => .ok tok

end Models

/-! ## Spec-side JSON documents (section 6 of the specification)

The canonical JSON document of each wire value, with the exact field names
and declaration order the spec gives; optional fields serialize as `null`
per the JSON library default. -/

def optStrJson : Option String → Json
  | none => .null
  | some s => .str s

def specProofJson (p : Models.Proof) : Json :=
  .obj [("id", optStrJson p.id), ("amount", .num p.amount), ("secret", .str p.secret),
        ("C", .str ⟨hexEncode p.unblinded_key⟩)]

def specMintTokenJson (m : Models.MintToken) : Json :=
  .obj [("mint", .str m.mint.raw), ("proofs", .arr (m.proofs.map specProofJson))]

def specTokenJson (t : Models.Token) : Json :=
  .obj [("token", .arr (t.token.map specMintTokenJson)), ("memo", optStrJson t.memo)]

/-! ## Auxiliary definitions used by the verification layer -/

deriving instance DecidableEq for Except

/-- Well-formed hex text: even length, all characters hex digits. -/
def specHexOk (s : String) : Prop :=
  s.data.length % 2 = 0 ∧ ∀ c ∈ s.data, (hexVal c).isSome

instance (s : String) : Decidable (specHexOk s) := by
  unfold specHexOk
  infer_instance

/-- Suffixes a printed number can legally run into: empty, or starting with
a non-digit (in printed tokens always a comma, brace or bracket). -/
def headNotDigit : List Char → Prop
  | [] => True
  | c :: _ => isDigit c = false

/-- One printed object field: quoted key, colon, printed value text. -/
def printFieldText (t : String × Json × List Char) : List Char :=
  printStr t.1 ++ ':' :: t.2.2

instance (u : WireUrl) : Decidable u.Wf := by
  unfold WireUrl.Wf
  infer_instance

instance (p : Models.Proof) : Decidable p.Wf := by
  unfold Models.Proof.Wf
  infer_instance

instance (m : Models.MintToken) : Decidable m.Wf := by
  unfold Models.MintToken.Wf
  infer_instance

instance (t : Models.Token) : Decidable t.Wf := by
  unfold Models.Token.Wf
  infer_instance

/-- One concrete well-formed token, for the C4 witness. -/
def tokenExample : Models.Token :=
  ⟨[⟨⟨"https://mint.example:3338"⟩, [⟨some "keyset0", 2, "secret one", [0xab, 0xcd]⟩,
    ⟨none, 8, "secret two", []⟩]⟩], some "Thank you."⟩


/-! ## Lemmas about the crypto layer -/

set_option maxRecDepth 1000000

set_option maxHeartbeats 12000000

theorem findSome?_map_succ {α : Type} (l : List Nat) (g : Nat → Option α) :
    (l.map Nat.succ).findSome? g = l.findSome? (fun i => g (Nat.succ i)) := by
  induction l with
  | nil => rfl
  | cons a l ih => simp only [List.map_cons, List.findSome?]; cases g (Nat.succ a) <;> simp [ih]

theorem hashLoop_eq_spec (fuel : Nat) :
    ∀ d, hashLoop fuel d =
      (List.range fuel).findSome? (fun i => fromSec1Bytes (2 :: iterSha i d)) := by
  induction fuel with
  | zero => intro d; rfl
  | succ f ih =>
    intro d
    rw [List.range_succ_eq_map]
    simp only [hashLoop, List.findSome?, iterSha, findSome?_map_succ]
    cases fromSec1Bytes (2 :: d) <;> simp [ih (sha256 d)]

theorem mulGo_zero (f : Nat) (ad acc : Point) : mulGo f 0 ad acc = acc := by
  cases f <;> simp [mulGo]

theorem mulGo_one (f : Nat) (p : Point) : mulGo (f + 1) 1 p .inf = p := by
  simp [mulGo, pointAdd, mulGo_zero]

theorem mulScalar_one (p : Point) : mulScalar 1 p = p := by
  have h1 : (1 : Nat) % nOrder = 1 := Nat.mod_eq_of_lt (by decide)
  have h2 : mulGo 256 1 p .inf = p := mulGo_one 255 p
  simpa [mulScalar, h1] using h2

theorem hexDecodeGo_ok :
    ∀ (k : Nat) (cs : List Char) (i : Nat), cs.length ≤ k → cs.length % 2 = 0 →
      (∀ c ∈ cs, (hexVal c).isSome) → ∃ bs, hexDecodeGo i cs = .ok bs := by
  intro k
  induction k with
  | zero =>
    intro cs i hlen _ _
    have : cs = [] := List.eq_nil_of_length_eq_zero (Nat.le_zero.mp hlen)
    exact this ▸ ⟨[], rfl⟩
  | succ k ih =>
    intro cs i hlen hpar hall
    match cs with
    | [] => exact ⟨[], rfl⟩
    | [c] => simp at hpar
    | c1 :: c2 :: rest =>
      have h1 := hall c1 (by simp)
      have h2 := hall c2 (by simp)
      obtain ⟨v1, hv1⟩ := Option.isSome_iff_exists.mp h1
      obtain ⟨v2, hv2⟩ := Option.isSome_iff_exists.mp h2
      have hr : rest.length ≤ k := by simp at hlen; omega
      have hrp : rest.length % 2 = 0 := by simp at hpar ⊢; omega
      obtain ⟨bs, hbs⟩ := ih rest (i + 2) hr hrp (fun c hc => hall c (by simp [hc]))
      exact ⟨(v1 * 16 + v2) :: bs, by simp [hexDecodeGo, hv1, hv2, hbs]⟩

theorem hexDecodeGo_err :
    ∀ (k : Nat) (cs : List Char) (i : Nat), cs.length ≤ k →
      (∃ c ∈ cs, hexVal c = none) → ∃ e, hexDecodeGo i cs = .error e := by
  intro k
  induction k with
  | zero =>
    intro cs i hlen hbad
    have : cs = [] := List.eq_nil_of_length_eq_zero (Nat.le_zero.mp hlen)
    subst this; simp at hbad
  | succ k ih =>
    intro cs i hlen hbad
    match cs with
    | [] => simp at hbad
    | [c] => exact ⟨.oddLength, rfl⟩
    | c1 :: c2 :: rest =>
      by_cases h1 : hexVal c1 = none
      · exact ⟨.invalidHexCharacter c1 i, by simp [hexDecodeGo, h1]⟩
      · obtain ⟨v1, hv1⟩ := Option.isSome_iff_exists.mp (Option.ne_none_iff_isSome.mp h1)
        by_cases h2 : hexVal c2 = none
        · exact ⟨.invalidHexCharacter c2 (i + 1), by simp [hexDecodeGo, hv1, h2]⟩
        · obtain ⟨v2, hv2⟩ := Option.isSome_iff_exists.mp (Option.ne_none_iff_isSome.mp h2)
          have hr : rest.length ≤ k := by simp at hlen; omega
          have hbad' : ∃ c ∈ rest, hexVal c = none := by
            obtain ⟨c, hc, hcn⟩ := hbad
            simp at hc
            rcases hc with rfl | rfl | hc
            · exact absurd hcn h1
            · exact absurd hcn h2
            · exact ⟨c, hc, hcn⟩
          obtain ⟨e, he⟩ := ih rest (i + 2) hr hbad'
          exact ⟨e, by simp [hexDecodeGo, hv1, hv2, he]⟩

theorem hexDecode_ok_of_specHexOk {s : String} (h : specHexOk s) :
    ∃ bs, hexDecode s = .ok bs := by
  obtain ⟨hpar, hall⟩ := h
  obtain ⟨bs, hbs⟩ := hexDecodeGo_ok s.data.length s.data 0 le_rfl hpar hall
  refine ⟨bs, ?_⟩
  unfold hexDecode
  rw [if_neg (by omega : ¬s.data.length % 2 = 1)]
  exact hbs

theorem hexDecode_err_of_not_specHexOk {s : String} (h : ¬specHexOk s) :
    ∃ e, hexDecode s = .error e := by
  by_cases hpar : s.data.length % 2 = 1
  · exact ⟨.oddLength, by unfold hexDecode; rw [if_pos hpar]⟩
  · have hpar0 : s.data.length % 2 = 0 := Nat.mod_two_ne_one.mp hpar
    have hbad : ∃ c ∈ s.data, hexVal c = none := by
      by_contra hc
      push_neg at hc
      exact h ⟨hpar0, fun c hcs => Option.ne_none_iff_isSome.mp (hc c hcs)⟩
    obtain ⟨e, he⟩ := hexDecodeGo_err s.data.length s.data 0 le_rfl hbad
    refine ⟨e, ?_⟩
    unfold hexDecode
    rw [if_neg hpar]
    exact he

/-! ## Claim theorems for the crypto layer -/

/-- C1: `hash_to_curve` returns exactly the point of the digest-iteration
algorithm (`d_0 = SHA-256(s)`, rehash until `0x02 ‖ d_i` parses as a
compressed point), and on the three 32-byte reference secrets it returns the
three reference points of the protocol test vectors. -/
theorem claim_C1 :
    (∀ (fuel : Nat) (s : Secret), Secret.hash_to_curve fuel s = specHashToCurve fuel s)
    ∧ Secret.hash_to_curve 10
        ⟨hexBytesD "0000000000000000000000000000000000000000000000000000000000000000"⟩ =
        fromSec1Bytes (hexBytesD "0266687aadf862bd776c8fc18b8e9f8e20089714856ee233b3902a591d0d5f2925")
    ∧ Secret.hash_to_curve 10
        ⟨hexBytesD "0000000000000000000000000000000000000000000000000000000000000001"⟩ =
        fromSec1Bytes (hexBytesD "02ec4916dd28fc4c10d78e287ca5d9cc51ee1ae73cbfde08c6b37324cbfaac8bc5")
    ∧ Secret.hash_to_curve 10
        ⟨hexBytesD "0000000000000000000000000000000000000000000000000000000000000002"⟩ =
        fromSec1Bytes (hexBytesD "02076c988b353fcbb748178ecb286bc9d0b4acf474d4ba31ba62334e46c97c416a") := by
  refine ⟨fun fuel s => hashLoop_eq_spec fuel (sha256 s.bytes), by decide, by decide, by decide⟩

/-- C2: `blinded_message` computes the sum of the hashed point and the
blinding scalar's public point, wraps it on success and fails with
`EccArithmetic` exactly when the sum is the point at infinity; on the
reference vector (secret `"test_message"`, scalar 1) it produces the
reference blinded point. -/
theorem claim_C2 :
    (∀ (fuel : Nat) (s : Secret) (r : Nat) (hp : Point),
        Secret.hash_to_curve fuel s = some hp →
        Secret.blinded_message fuel s r =
          some (if pointAdd hp (mulScalar r basePoint) = Point.inf
                then Except.error Error.eccArithmetic
                else Except.ok ⟨pointAdd hp (mulScalar r basePoint)⟩))
    ∧ Secret.blinded_message 5 ⟨asciiBytes "test_message"⟩ 1 =
        (fromSec1Bytes
          (hexBytesD "02a9acc1e48c25eeeb9289b5031cc57da9fe72f3fe2861d264bdc074209b107ba2")).map
          (fun p => Except.ok ⟨p⟩) := by
  constructor
  · intro fuel s r hp h
    unfold Secret.blinded_message
    rw [h]
    rcases hP : pointAdd hp (mulScalar r basePoint) with _ | ⟨x, y⟩ <;>
      simp [toPublicKey, hP]
  · decide

/-- Witness for C2: the universal part instantiated on the reference vector,
with the hash-to-curve hypothesis discharged by evaluation. -/
theorem claim_C2_witness :
    Secret.blinded_message 5 ⟨asciiBytes "test_message"⟩ 1 =
      some (if pointAdd
              (Point.mk 0x49b34f4bc4921e3c11e8995e34b33b51540a961c55877a10c49c0e7d1fc04ab9
                0x9a58d40bb8e30a6dc54fc02f7c5529e44585a2362567f33abca71f9d9617dca4)
              (mulScalar 1 basePoint) = Point.inf
            then Except.error Error.eccArithmetic
            else Except.ok ⟨pointAdd
              (Point.mk 0x49b34f4bc4921e3c11e8995e34b33b51540a961c55877a10c49c0e7d1fc04ab9
                0x9a58d40bb8e30a6dc54fc02f7c5529e44585a2362567f33abca71f9d9617dca4)
              (mulScalar 1 basePoint)⟩) :=
  claim_C2.1 5 ⟨asciiBytes "test_message"⟩ 1
    (Point.mk 0x49b34f4bc4921e3c11e8995e34b33b51540a961c55877a10c49c0e7d1fc04ab9
      0x9a58d40bb8e30a6dc54fc02f7c5529e44585a2362567f33abca71f9d9617dca4)
    (by decide)

/-- C3: `blinded_key` multiplies the wrapped point by the mint scalar, wraps
the product on success and fails with `EccArithmetic` exactly when the
product is the identity; scalar 1 returns the identical point, and the
`7f…7f` reference scalar maps the reference blinded message to the reference
blinded key. -/
theorem claim_C3 :
    (∀ (bm : BlindedMessage) (k : Nat),
        bm.blinded_key k =
          if mulScalar k bm.pt = Point.inf then Except.error Error.eccArithmetic
          else Except.ok ⟨mulScalar k bm.pt⟩)
    ∧ (∀ bm : BlindedMessage, bm.pt ≠ Point.inf → bm.blinded_key 1 = Except.ok ⟨bm.pt⟩)
    ∧ BlindedMessage.from_hex
        "02a9acc1e48c25eeeb9289b5031cc57da9fe72f3fe2861d264bdc074209b107ba2" =
        Except.ok ⟨Point.mk 0xa9acc1e48c25eeeb9289b5031cc57da9fe72f3fe2861d264bdc074209b107ba2
          0x70b2031fef3acf8e13ea7a395e375491bdc37be1cd79e073d82bfd5ba8d35d68⟩
    ∧ BlindedKey.from_hex
        "0398bc70ce8184d27ba89834d19f5199c84443c31131e48d3c1214db24247d005d" =
        Except.ok ⟨Point.mk 0x98bc70ce8184d27ba89834d19f5199c84443c31131e48d3c1214db24247d005d
          0x0bc19a7fe3249a3d040cc425a3760033da9a082813d466712ec7fccaed29174b⟩
    ∧ BlindedMessage.blinded_key
        ⟨Point.mk 0xa9acc1e48c25eeeb9289b5031cc57da9fe72f3fe2861d264bdc074209b107ba2
          0x70b2031fef3acf8e13ea7a395e375491bdc37be1cd79e073d82bfd5ba8d35d68⟩
        0x7f7f7f7f7f7f7f7f7f7f7f7f7f7f7f7f7f7f7f7f7f7f7f7f7f7f7f7f7f7f7f7f =
        Except.ok ⟨Point.mk 0x98bc70ce8184d27ba89834d19f5199c84443c31131e48d3c1214db24247d005d
          0x0bc19a7fe3249a3d040cc425a3760033da9a082813d466712ec7fccaed29174b⟩ := by
  refine ⟨?_, ?_, by decide, by decide, by decide⟩
  · intro bm k
    unfold BlindedMessage.blinded_key
    rcases hP : mulScalar k bm.pt with _ | ⟨x, y⟩ <;> simp [toPublicKey, hP]
  · intro bm h
    unfold BlindedMessage.blinded_key
    rw [mulScalar_one]
    rcases hP : bm.pt with _ | ⟨x, y⟩
    · exact absurd hP h
    · simp [toPublicKey]

/-- Witness for C3: the identity-scalar part instantiated on the reference
blinded message point. -/
theorem claim_C3_witness :
    BlindedMessage.blinded_key
      ⟨Point.mk 0xa9acc1e48c25eeeb9289b5031cc57da9fe72f3fe2861d264bdc074209b107ba2
        0x70b2031fef3acf8e13ea7a395e375491bdc37be1cd79e073d82bfd5ba8d35d68⟩ 1 =
      Except.ok ⟨Point.mk 0xa9acc1e48c25eeeb9289b5031cc57da9fe72f3fe2861d264bdc074209b107ba2
        0x70b2031fef3acf8e13ea7a395e375491bdc37be1cd79e073d82bfd5ba8d35d68⟩ :=
  claim_C3.2.1
    ⟨Point.mk 0xa9acc1e48c25eeeb9289b5031cc57da9fe72f3fe2861d264bdc074209b107ba2
      0x70b2031fef3acf8e13ea7a395e375491bdc37be1cd79e073d82bfd5ba8d35d68⟩
    (by decide)

/-- C8: the hex constructors fail with `HexConversion` exactly on odd length
or a non-hex character; the point wrappers additionally fail with
`EccArithmetic` exactly when the decoded bytes are not a valid SEC1 point,
and succeed otherwise. -/
theorem claim_C8 :
    ∀ s : String,
      (specHexOk s →
        ∃ bs, hexDecode s = .ok bs ∧ Secret.from_hex s = .ok ⟨bs⟩ ∧
          ((∃ p, fromSec1Bytes bs = some p ∧
              BlindedMessage.from_hex s = .ok ⟨p⟩ ∧ BlindedKey.from_hex s = .ok ⟨p⟩)
           ∨ (fromSec1Bytes bs = none ∧
              BlindedMessage.from_hex s = .error .eccArithmetic ∧
              BlindedKey.from_hex s = .error .eccArithmetic)))
      ∧ (¬specHexOk s →
        ∃ e, Secret.from_hex s = .error (.hexConversion e) ∧
          BlindedMessage.from_hex s = .error (.hexConversion e) ∧
          BlindedKey.from_hex s = .error (.hexConversion e)) := by
  intro s
  constructor
  · intro h
    obtain ⟨bs, hbs⟩ := hexDecode_ok_of_specHexOk h
    refine ⟨bs, hbs, ?_, ?_⟩
    · simp [Secret.from_hex, hbs]
    · rcases hp : fromSec1Bytes bs with _ | p
      · exact Or.inr ⟨rfl, by simp [BlindedMessage.from_hex, hbs, hp],
          by simp [BlindedKey.from_hex, hbs, hp]⟩
      · exact Or.inl ⟨p, rfl, by simp [BlindedMessage.from_hex, hbs, hp],
          by simp [BlindedKey.from_hex, hbs, hp]⟩
  · intro h
    obtain ⟨e, he⟩ := hexDecode_err_of_not_specHexOk h
    refine ⟨e, ?_, ?_, ?_⟩
    · simp [Secret.from_hex, he]
    · simp [BlindedMessage.from_hex, he]
    · simp [BlindedKey.from_hex, he]

/-- Witness for C8: the characterization applied to the concrete strings
`"ff"` (valid hex, not a point), and `"f"` (odd length). -/
theorem claim_C8_witness :
    (∃ bs, hexDecode "ff" = .ok bs ∧ Secret.from_hex "ff" = .ok ⟨bs⟩ ∧
      ((∃ p, fromSec1Bytes bs = some p ∧
          BlindedMessage.from_hex "ff" = .ok ⟨p⟩ ∧ BlindedKey.from_hex "ff" = .ok ⟨p⟩)
       ∨ (fromSec1Bytes bs = none ∧
          BlindedMessage.from_hex "ff" = .error .eccArithmetic ∧
          BlindedKey.from_hex "ff" = .error .eccArithmetic)))
    ∧ (∃ e, Secret.from_hex "f" = .error (.hexConversion e) ∧
        BlindedMessage.from_hex "f" = .error (.hexConversion e) ∧
        BlindedKey.from_hex "f" = .error (.hexConversion e)) :=
  ⟨(claim_C8 "ff").1 (by decide), (claim_C8 "f").2 (by decide)⟩

/-- C9: `hash_to_curve` is deterministic, a function of the secret's bytes
alone (the embedding is pure, so two evaluations on equal byte strings are
identical). -/
theorem claim_C9 :
    ∀ (fuel : Nat) (s1 s2 : Secret), s1.bytes = s2.bytes →
      Secret.hash_to_curve fuel s1 = Secret.hash_to_curve fuel s2 := by
  intro fuel s1 s2 h
  cases s1
  cases s2
  cases h
  rfl

/-- Witness for C9 on a concrete byte string. -/
theorem claim_C9_witness :
    Secret.hash_to_curve 3 ⟨[1, 2, 3]⟩ = Secret.hash_to_curve 3 ⟨[1, 2, 3]⟩ :=
  claim_C9 3 ⟨[1, 2, 3]⟩ ⟨[1, 2, 3]⟩ rfl

/-! ## Codec round-trip lemmas -/

theorem hexVal_hexDigitChar : ∀ v, v < 16 → hexVal (hexDigitChar v) = some v := by decide

theorem hexDecodeGo_hexEncode :
    ∀ (bs : List Nat) (i : Nat), (∀ b ∈ bs, b < 256) →
      hexDecodeGo i (hexEncode bs) = .ok bs := by
  intro bs
  induction bs with
  | nil => intro i _; rfl
  | cons b bs ih =>
    intro i h
    have hb : b < 256 := h b (by simp)
    have h1 : hexVal (hexDigitChar (b / 16)) = some (b / 16) :=
      hexVal_hexDigitChar _ (by omega)
    have h2 : hexVal (hexDigitChar (b % 16)) = some (b % 16) :=
      hexVal_hexDigitChar _ (by omega)
    have hrest : hexDecodeGo (i + 2) (hexEncode bs) = .ok bs :=
      ih (i + 2) (fun x hx => h x (by simp [hx]))
    have hcomb : b / 16 * 16 + b % 16 = b := by omega
    simp only [hexEncode, List.flatMap_cons, List.cons_append, List.nil_append] at hrest ⊢
    simp [hexDecodeGo, h1, h2, hrest, hcomb]

theorem hexEncode_length (bs : List Nat) : (hexEncode bs).length = 2 * bs.length := by
  induction bs with
  | nil => rfl
  | cons b bs ih => simp [hexEncode, List.flatMap_cons] at ih ⊢; omega

theorem hexDecode_hexEncode (bs : List Nat) (h : ∀ b ∈ bs, b < 256) :
    hexDecode ⟨hexEncode bs⟩ = .ok bs := by
  unfold hexDecode
  have hl : (hexEncode bs).length = 2 * bs.length := hexEncode_length bs
  rw [if_neg (by simp only [hl]; omega)]
  exact hexDecodeGo_hexEncode bs 0 h

theorem b64Val_b64Char : ∀ v, v < 64 → b64Val (b64Char v) = some v := by decide

theorem b64Char_ne_pad : ∀ v, v < 64 → ¬(b64Char v = '=') := by decide

theorem b64EncodeGo_fuel :
    ∀ (k : Nat) (bs : List Nat) (f g : Nat), bs.length ≤ k → bs.length ≤ f → bs.length ≤ g →
      b64EncodeGo f bs = b64EncodeGo g bs := by
  intro k
  induction k with
  | zero =>
    intro bs f g hk _ _
    have : bs = [] := List.eq_nil_of_length_eq_zero (Nat.le_zero.mp hk)
    subst this
    cases f <;> cases g <;> rfl
  | succ k ih =>
    intro bs f g hk hf hg
    match bs, f, g with
    | [], f, g => cases f <;> cases g <;> rfl
    | b :: bs', 0, _ => simp at hf
    | b :: bs', _ + 1, 0 => simp at hg
    | [a], f + 1, g + 1 => rfl
    | [a, b], f + 1, g + 1 => rfl
    | a :: b :: c :: rest, f + 1, g + 1 =>
      have h1 : rest.length ≤ k := by simp at hk; omega
      have h2 : rest.length ≤ f := by simp at hf; omega
      have h3 : rest.length ≤ g := by simp at hg; omega
      simp only [b64EncodeGo]
      rw [ih rest f g h1 h2 h3]

theorem b64DecodeGo_b64Encode :
    ∀ (k : Nat) (bs : List Nat) (pos g : Nat), bs.length ≤ k → (∀ b ∈ bs, b < 256) →
      (b64EncodeGo bs.length bs).length ≤ g →
      b64DecodeGo g pos (b64EncodeGo bs.length bs) = .ok bs := by
  intro k
  induction k with
  | zero =>
    intro bs pos g hk _ _
    have : bs = [] := List.eq_nil_of_length_eq_zero (Nat.le_zero.mp hk)
    subst this
    cases g <;> rfl
  | succ k ih =>
    intro bs pos g hk hlt hg
    match bs with
    | [] => cases g <;> rfl
    | [a] =>
      have ha : a < 256 := hlt a (by simp)
      match g with
      | 0 => simp [b64EncodeGo] at hg
      | g + 1 =>
        have h0 : b64Val (b64Char (a / 4)) = some (a / 4) := b64Val_b64Char _ (by omega)
        have h1 : b64Val (b64Char (a % 4 * 16)) = some (a % 4 * 16) :=
          b64Val_b64Char _ (by omega)
        have hc : a / 4 * 4 + a % 4 * 16 / 16 = a := by omega
        simp [b64EncodeGo, b64DecodeGo, h0, h1, Nat.mul_mod_left, hc]
        all_goals omega
    | [a, b] =>
      have ha : a < 256 := hlt a (by simp)
      have hb : b < 256 := hlt b (by simp)
      match g with
      | 0 => simp [b64EncodeGo] at hg
      | g + 1 =>
        have h0 : b64Val (b64Char (a / 4)) = some (a / 4) := b64Val_b64Char _ (by omega)
        have h1 : b64Val (b64Char (a % 4 * 16 + b / 16)) = some (a % 4 * 16 + b / 16) :=
          b64Val_b64Char _ (by omega)
        have h2 : b64Val (b64Char (b % 16 * 4)) = some (b % 16 * 4) :=
          b64Val_b64Char _ (by omega)
        have hne : ¬(b64Char (b % 16 * 4) = '=') := b64Char_ne_pad _ (by omega)
        have hc1 : a / 4 * 4 + (a % 4 * 16 + b / 16) / 16 = a := by omega
        have hc2 : (a % 4 * 16 + b / 16) % 16 * 16 + b % 16 * 4 / 4 = b := by omega
        simp [b64EncodeGo, b64DecodeGo, h0, h1, h2, hne, Nat.mul_mod_left, hc1, hc2]
        all_goals omega
    | a :: b :: c :: rest =>
      have ha : a < 256 := hlt a (by simp)
      have hb : b < 256 := hlt b (by simp)
      have hc : c < 256 := hlt c (by simp)
      have henc : b64EncodeGo (a :: b :: c :: rest).length (a :: b :: c :: rest) =
          b64Char (a / 4) :: b64Char (a % 4 * 16 + b / 16) :: b64Char (b % 16 * 4 + c / 64) ::
            b64Char (c % 64) :: b64EncodeGo rest.length rest := by
        simp only [List.length_cons, b64EncodeGo]
        rw [b64EncodeGo_fuel (rest.length + 2) rest (rest.length + 2) rest.length (by omega)
          (by omega) le_rfl]
      rw [henc] at hg ⊢
      match g with
      | 0 => simp at hg
      | g + 1 =>
        have h0 : b64Val (b64Char (a / 4)) = some (a / 4) := b64Val_b64Char _ (by omega)
        have h1 : b64Val (b64Char (a % 4 * 16 + b / 16)) = some (a % 4 * 16 + b / 16) :=
          b64Val_b64Char _ (by omega)
        have h2 : b64Val (b64Char (b % 16 * 4 + c / 64)) = some (b % 16 * 4 + c / 64) :=
          b64Val_b64Char _ (by omega)
        have h3 : b64Val (b64Char (c % 64)) = some (c % 64) := b64Val_b64Char _ (by omega)
        have hne2 : ¬(b64Char (b % 16 * 4 + c / 64) = '=') := b64Char_ne_pad _ (by omega)
        have hne3 : ¬(b64Char (c % 64) = '=') := b64Char_ne_pad _ (by omega)
        have hrec : b64DecodeGo g (pos + 4) (b64EncodeGo rest.length rest) = .ok rest :=
          ih rest (pos + 4) g (by simp at hk; omega) (fun x hx => hlt x (by simp [hx]))
            (by simp at hg; omega)
        have hc1 : a / 4 * 4 + (a % 4 * 16 + b / 16) / 16 = a := by omega
        have hc2 : (a % 4 * 16 + b / 16) % 16 * 16 + (b % 16 * 4 + c / 64) / 4 = b := by omega
        have hc3 : (b % 16 * 4 + c / 64) % 4 * 64 + c % 64 = c := by omega
        simp [b64DecodeGo, h0, h1, h2, h3, hne2, hne3, hrec, hc1, hc2, hc3]

theorem b64Decode_b64Encode (bs : List Nat) (h : ∀ b ∈ bs, b < 256) :
    b64Decode (b64Encode bs) = .ok bs := by
  unfold b64Decode b64Encode
  exact b64DecodeGo_b64Encode bs.length bs 0 _ le_rfl h le_rfl

theorem char_toNat_valid (c : Char) :
    c.toNat < 0xD800 ∨ (0xDFFF < c.toNat ∧ c.toNat < 0x110000) := by
  have h := c.valid
  rcases h with h | ⟨h1, h2⟩
  · exact Or.inl h
  · exact Or.inr ⟨h1, h2⟩

theorem utf8EncodeChar_lt256 (c : Char) : ∀ b ∈ utf8EncodeChar c.toNat, b < 256 := by
  have hv := char_toNat_valid c
  unfold utf8EncodeChar
  split
  · intro b hb; simp at hb; omega
  · split
    · intro b hb; simp at hb; rcases hb with rfl | rfl <;> omega
    · split
      · intro b hb; simp at hb; rcases hb with rfl | rfl | rfl <;> omega
      · intro b hb
        simp at hb
        rcases hb with rfl | rfl | rfl | rfl <;> omega

theorem utf8Encode_lt256 (s : String) : ∀ b ∈ utf8Encode s, b < 256 := by
  unfold utf8Encode
  intro b hb
  simp only [List.mem_flatMap] at hb
  obtain ⟨c, _, hc⟩ := hb
  exact utf8EncodeChar_lt256 c b hc

theorem utf8EncodeChar_length_pos (c : Char) : 1 ≤ (utf8EncodeChar c.toNat).length := by
  unfold utf8EncodeChar
  split
  · simp
  · split
    · simp
    · split <;> simp

/-- Decoding one encoded character consumes exactly its bytes and yields its
scalar value back. -/
theorem utf8DecodeStep_encChar (c : Char) (pos : Nat) (bs : List Nat) :
    utf8DecodeStep pos (utf8EncodeChar c.toNat ++ bs) =
      .ok (c.toNat, (utf8EncodeChar c.toNat).length, bs) := by
  have hv := char_toNat_valid c
  by_cases h1 : c.toNat < 0x80
  · have he : utf8EncodeChar c.toNat = [c.toNat] := by unfold utf8EncodeChar; rw [if_pos h1]
    rw [he]
    simp only [List.cons_append, List.nil_append, List.length_cons, List.length_nil]
    simp only [utf8DecodeStep]
    rw [if_pos h1]
  · by_cases h2 : c.toNat < 0x800
    · have he : utf8EncodeChar c.toNat = [0xC0 + c.toNat / 64, 0x80 + c.toNat % 64] := by
        unfold utf8EncodeChar; rw [if_neg h1, if_pos h2]
      rw [he]
      simp only [List.cons_append, List.nil_append, List.length_cons, List.length_nil]
      simp only [utf8DecodeStep]
      rw [if_neg (by omega), if_pos (by constructor <;> omega),
        if_pos (by constructor <;> omega)]
      have hval : (0xC0 + c.toNat / 64 - 0xC0) * 64 + (0x80 + c.toNat % 64 - 0x80)
          = c.toNat := by omega
      rw [hval]
    · by_cases h3 : c.toNat < 0x10000
      · have he : utf8EncodeChar c.toNat =
            [0xE0 + c.toNat / 4096, 0x80 + c.toNat / 64 % 64, 0x80 + c.toNat % 64] := by
          unfold utf8EncodeChar; rw [if_neg h1, if_neg h2, if_pos h3]
        rw [he]
        simp only [List.cons_append, List.nil_append, List.length_cons, List.length_nil]
        simp only [utf8DecodeStep]
        rw [if_neg (by omega), if_neg (by omega), if_pos (by constructor <;> omega),
          if_pos (by exact ⟨⟨by omega, by omega⟩, by omega, by omega⟩)]
        have hval : (0xE0 + c.toNat / 4096 - 0xE0) * 4096 + (0x80 + c.toNat / 64 % 64 - 0x80) * 64
            + (0x80 + c.toNat % 64 - 0x80) = c.toNat := by omega
        simp only [hval]
        rw [if_pos (by omega)]
      · have he : utf8EncodeChar c.toNat =
            [0xF0 + c.toNat / 262144, 0x80 + c.toNat / 4096 % 64, 0x80 + c.toNat / 64 % 64,
             0x80 + c.toNat % 64] := by
          unfold utf8EncodeChar; rw [if_neg h1, if_neg h2, if_neg h3]
        rw [he]
        simp only [List.cons_append, List.nil_append, List.length_cons, List.length_nil]
        simp only [utf8DecodeStep]
        rw [if_neg (by omega), if_neg (by omega), if_neg (by omega),
          if_pos (by constructor <;> omega),
          if_pos (by exact ⟨⟨by omega, by omega⟩, ⟨by omega, by omega⟩, by omega, by omega⟩)]
        have hval : (0xF0 + c.toNat / 262144 - 0xF0) * 262144
            + (0x80 + c.toNat / 4096 % 64 - 0x80) * 4096
            + (0x80 + c.toNat / 64 % 64 - 0x80) * 64 + (0x80 + c.toNat % 64 - 0x80)
            = c.toNat := by omega
        simp only [hval]
        rw [if_pos (by omega)]

theorem utf8DecodeGo_utf8Encode :
    forall (cs : List Char) (f pos : Nat), cs.length <= f ->
      utf8DecodeGo f pos (cs.flatMap (fun c => utf8EncodeChar c.toNat)) = .ok cs := by
  intro cs
  induction cs with
  | nil => intro f pos _; cases f <;> rfl
  | cons c cs ih =>
    intro f pos hf
    match f with
    | 0 => simp at hf
    | f + 1 =>
      rw [List.flatMap_cons]
      obtain ⟨b, tl, he⟩ := List.exists_cons_of_ne_nil
        (List.ne_nil_of_length_pos (utf8EncodeChar_length_pos c))
      rw [he, List.cons_append]
      simp only [utf8DecodeGo]
      rw [← List.cons_append, ← he, utf8DecodeStep_encChar c pos]
      simp only [Except.ok.injEq]
      rw [ih f (pos + (utf8EncodeChar c.toNat).length) (by simp at hf; omega)]
      simp [Char.ofNat_toNat]

theorem utf8Encode_length_ge (s : String) : s.data.length ≤ (utf8Encode s).length := by
  unfold utf8Encode
  induction s.data with
  | nil => simp
  | cons c cs ih =>
    simp only [List.flatMap_cons, List.length_append, List.length_cons]
    have := utf8EncodeChar_length_pos c
    omega

theorem utf8Decode_utf8Encode (s : String) : utf8Decode (utf8Encode s) = .ok s := by
  unfold utf8Decode
  rw [show utf8Encode s = s.data.flatMap (fun c => utf8EncodeChar c.toNat) from rfl]
  rw [utf8DecodeGo_utf8Encode s.data (s.data.flatMap (fun c => utf8EncodeChar c.toNat)).length 0
    (by have := utf8Encode_length_ge s; exact this)]

/-! ## JSON parser round-trip lemmas

Following the structure of parser-inversion proofs: each lemma states that
the parser, run on a printed fragment followed by an arbitrary suffix,
consumes exactly the fragment and returns its document, for any fuel above
an explicit linear bound. -/

theorem escChar_length_pos (c : Char) : 1 ≤ (escChar c).length := by
  unfold escChar
  split
  · simp
  · split
    · simp
    · split
      · split
        · simp
        · split
          · simp
          · split
            · simp
            · split
              · simp
              · split <;> simp
      · simp

theorem parseStrGo_escaped :
    ∀ (cs : List Char) (f : Nat) (acc rest : List Char),
      (cs.flatMap escChar).length + 1 ≤ f →
      parseStrGo f (cs.flatMap escChar ++ '"' :: rest) acc = some (⟨acc.reverse ++ cs⟩, rest) := by
  intro cs
  induction cs with
  | nil =>
    intro f acc rest hf
    match f with
    | 0 => simp at hf
    | f + 1 =>
      simp only [List.flatMap_nil, List.nil_append]
      simp [parseStrGo]
  | cons c cs ih =>
    intro f acc rest hf
    rw [List.flatMap_cons] at hf ⊢
    have hlen1 := escChar_length_pos c
    by_cases hq : c = '"'
    · subst hq
      have he : escChar '"' = ['\\', '"'] := rfl
      rw [he] at hf ⊢
      match f with
      | 0 => simp at hf
      | f + 1 =>
        simp only [List.cons_append, List.nil_append]
        simp only [parseStrGo, if_neg (by decide : ¬('\\' : Char) = '"'), if_pos rfl]
        rw [ih f ('"' :: acc) rest (by simp at hf ⊢; omega)]
        simp
    · by_cases hb : c = '\\'
      · subst hb
        have he : escChar '\\' = ['\\', '\\'] := rfl
        rw [he] at hf ⊢
        match f with
        | 0 => simp at hf
        | f + 1 =>
          simp only [List.cons_append, List.nil_append]
          simp only [parseStrGo, if_neg (by decide : ¬('\\' : Char) = '"'), if_pos rfl,
            if_neg (by decide : ¬('\\' : Char) = '"')]
          rw [ih f ('\\' :: acc) rest (by simp at hf ⊢; omega)]
          simp
      · by_cases hctl : c.toNat < 32
        · have hofn : Char.ofNat c.toNat = c := Char.ofNat_toNat c
          by_cases h8 : c.toNat = 8
          · have he : escChar c = ['\\', 'b'] := by
              unfold escChar
              rw [if_neg hq, if_neg hb, if_pos hctl, if_pos h8]
            rw [he] at hf ⊢
            match f with
            | 0 => simp at hf
            | f + 1 =>
              simp only [List.cons_append, List.nil_append]
              simp only [parseStrGo, if_neg (by decide : ¬('\\' : Char) = '"'), if_pos rfl,
                if_neg (by decide : ¬('b' : Char) = '"'),
                if_neg (by decide : ¬('b' : Char) = '\\'),
                if_neg (by decide : ¬('b' : Char) = '/'), if_pos rfl]
              rw [show Char.ofNat 8 = c from h8 ▸ hofn]
              rw [ih f (c :: acc) rest (by simp at hf ⊢; omega)]
              simp
          · by_cases h9 : c.toNat = 9
            · have he : escChar c = ['\\', 't'] := by
                unfold escChar
                rw [if_neg hq, if_neg hb, if_pos hctl, if_neg h8, if_pos h9]
              rw [he] at hf ⊢
              match f with
              | 0 => simp at hf
              | f + 1 =>
                simp only [List.cons_append, List.nil_append]
                simp only [parseStrGo, if_neg (by decide : ¬('\\' : Char) = '"'), if_pos rfl,
                  if_neg (by decide : ¬('t' : Char) = '"'),
                  if_neg (by decide : ¬('t' : Char) = '\\'),
                  if_neg (by decide : ¬('t' : Char) = '/'),
                  if_neg (by decide : ¬('t' : Char) = 'b'),
                  if_neg (by decide : ¬('t' : Char) = 'f'),
                  if_neg (by decide : ¬('t' : Char) = 'n'),
                  if_neg (by decide : ¬('t' : Char) = 'r'), if_pos rfl]
                rw [show Char.ofNat 9 = c from h9 ▸ hofn]
                rw [ih f (c :: acc) rest (by simp at hf ⊢; omega)]
                simp
            · by_cases h10 : c.toNat = 10
              · have he : escChar c = ['\\', 'n'] := by
                  unfold escChar
                  rw [if_neg hq, if_neg hb, if_pos hctl, if_neg h8, if_neg h9, if_pos h10]
                rw [he] at hf ⊢
                match f with
                | 0 => simp at hf
                | f + 1 =>
                  simp only [List.cons_append, List.nil_append]
                  simp only [parseStrGo, if_neg (by decide : ¬('\\' : Char) = '"'), if_pos rfl,
                    if_neg (by decide : ¬('n' : Char) = '"'),
                    if_neg (by decide : ¬('n' : Char) = '\\'),
                    if_neg (by decide : ¬('n' : Char) = '/'),
                    if_neg (by decide : ¬('n' : Char) = 'b'),
                    if_neg (by decide : ¬('n' : Char) = 'f'), if_pos rfl]
                  rw [show Char.ofNat 10 = c from h10 ▸ hofn]
                  rw [ih f (c :: acc) rest (by simp at hf ⊢; omega)]
                  simp
              · by_cases h12 : c.toNat = 12
                · have he : escChar c = ['\\', 'f'] := by
                    unfold escChar
                    rw [if_neg hq, if_neg hb, if_pos hctl, if_neg h8, if_neg h9, if_neg h10,
                      if_pos h12]
                  rw [he] at hf ⊢
                  match f with
                  | 0 => simp at hf
                  | f + 1 =>
                    simp only [List.cons_append, List.nil_append]
                    simp only [parseStrGo, if_neg (by decide : ¬('\\' : Char) = '"'), if_pos rfl,
                      if_neg (by decide : ¬('f' : Char) = '"'),
                      if_neg (by decide : ¬('f' : Char) = '\\'),
                      if_neg (by decide : ¬('f' : Char) = '/'),
                      if_neg (by decide : ¬('f' : Char) = 'b'), if_pos rfl]
                    rw [show Char.ofNat 12 = c from h12 ▸ hofn]
                    rw [ih f (c :: acc) rest (by simp at hf ⊢; omega)]
                    simp
                · by_cases h13 : c.toNat = 13
                  · have he : escChar c = ['\\', 'r'] := by
                      unfold escChar
                      rw [if_neg hq, if_neg hb, if_pos hctl, if_neg h8, if_neg h9, if_neg h10,
                        if_neg h12, if_pos h13]
                    rw [he] at hf ⊢
                    match f with
                    | 0 => simp at hf
                    | f + 1 =>
                      simp only [List.cons_append, List.nil_append]
                      simp only [parseStrGo, if_neg (by decide : ¬('\\' : Char) = '"'),
                        if_pos rfl,
                        if_neg (by decide : ¬('r' : Char) = '"'),
                        if_neg (by decide : ¬('r' : Char) = '\\'),
                        if_neg (by decide : ¬('r' : Char) = '/'),
                        if_neg (by decide : ¬('r' : Char) = 'b'),
                        if_neg (by decide : ¬('r' : Char) = 'f'),
                        if_neg (by decide : ¬('r' : Char) = 'n'), if_pos rfl]
                      rw [show Char.ofNat 13 = c from h13 ▸ hofn]
                      rw [ih f (c :: acc) rest (by simp at hf ⊢; omega)]
                      simp
                  · have he : escChar c =
                        ['\\', 'u', '0', '0', hexDigitChar (c.toNat / 16),
                         hexDigitChar (c.toNat % 16)] := by
                      unfold escChar
                      rw [if_neg hq, if_neg hb, if_pos hctl, if_neg h8, if_neg h9, if_neg h10,
                        if_neg h12, if_neg h13]
                    rw [he] at hf ⊢
                    match f with
                    | 0 => simp at hf
                    | f + 1 =>
                      simp only [List.cons_append, List.nil_append]
                      simp only [parseStrGo, if_neg (by decide : ¬('\\' : Char) = '"'),
                        if_pos rfl,
                        if_neg (by decide : ¬('u' : Char) = '"'),
                        if_neg (by decide : ¬('u' : Char) = '\\'),
                        if_neg (by decide : ¬('u' : Char) = '/'),
                        if_neg (by decide : ¬('u' : Char) = 'b'),
                        if_neg (by decide : ¬('u' : Char) = 'f'),
                        if_neg (by decide : ¬('u' : Char) = 'n'),
                        if_neg (by decide : ¬('u' : Char) = 'r'),
                        if_neg (by decide : ¬('u' : Char) = 't'), if_pos rfl]
                      have hd1 : hexVal (hexDigitChar (c.toNat / 16)) = some (c.toNat / 16) :=
                        hexVal_hexDigitChar _ (by omega)
                      have hd2 : hexVal (hexDigitChar (c.toNat % 16)) = some (c.toNat % 16) :=
                        hexVal_hexDigitChar _ (by omega)
                      simp only [parseHex4, hd1, hd2,
                        show hexVal '0' = some 0 from rfl]
                      have hn : 0 * 4096 + 0 * 256 + c.toNat / 16 * 16 + c.toNat % 16
                          = c.toNat := by omega
                      rw [hn, if_pos (Or.inl (by omega)), hofn]
                      rw [ih f (c :: acc) rest (by simp at hf ⊢; omega)]
                      simp
        · have he : escChar c = [c] := by
            unfold escChar
            rw [if_neg hq, if_neg hb, if_neg hctl]
          rw [he] at hf ⊢
          match f with
          | 0 => simp at hf
          | f + 1 =>
            simp only [List.cons_append, List.nil_append]
            simp only [parseStrGo, if_neg hq, if_neg hb, if_neg hctl]
            rw [ih f (c :: acc) rest (by simp at hf ⊢; omega)]
            simp

/-- The string parser inverts printing: it consumes the escaped body and the
closing quote and returns the original string. -/
theorem parseStr_escaped (cs : List Char) (rest : List Char) :
    parseStr (cs.flatMap escChar ++ '"' :: rest) = some (⟨cs⟩, rest) := by
  unfold parseStr
  have h := parseStrGo_escaped cs ((cs.flatMap escChar ++ '"' :: rest).length + 1) [] rest
    (by simp)
  simpa using h

theorem char_ne_of_toNat_ne {a b : Char} (h : a.toNat ≠ b.toNat) : ¬(a = b) :=
  fun he => h (he ▸ rfl)

theorem toNat_digitChar (d : Nat) (h : d < 10) : (digitChar d).toNat = 48 + d := by
  unfold digitChar Char.ofNat
  rw [dif_pos (Or.inl (by omega))]
  rfl

theorem isDigit_digitChar (d : Nat) (h : d < 10) : isDigit (digitChar d) = true := by
  simp [isDigit, toNat_digitChar d h]
  omega

theorem digitsToNat_append_one (xs : List Char) (d : Char) :
    digitsToNat (xs ++ [d]) = digitsToNat xs * 10 + (d.toNat - 48) := by
  simp [digitsToNat, List.foldl_append]

theorem natDigits_spec :
    ∀ (f n : Nat), 0 < n → n < 10 ^ f →
      ∃ c ds, natDigits f n = c :: ds ∧ isDigit c = true ∧ ¬(c = '0') ∧
        (∀ d ∈ ds, isDigit d = true) ∧ digitsToNat (c :: ds) = n := by
  intro f
  induction f with
  | zero => intro n h1 h2; simp at h2; omega
  | succ f ih =>
    intro n h1 h2
    by_cases hsmall : n < 10
    · refine ⟨digitChar n, [], ?_, isDigit_digitChar n hsmall, ?_, by simp, ?_⟩
      · unfold natDigits; rw [if_pos hsmall]
      · exact char_ne_of_toNat_ne
          (by rw [toNat_digitChar n hsmall, show ('0' : Char).toNat = 48 from rfl]; omega)
      · simp [digitsToNat, toNat_digitChar n hsmall]
    · obtain ⟨c, ds, hnd, hdig, hnz, hall, hval⟩ :=
        ih (n / 10) (by omega) (by rw [pow_succ] at h2; omega)
      refine ⟨c, ds ++ [digitChar (n % 10)], ?_, hdig, hnz, ?_, ?_⟩
      · unfold natDigits
        rw [if_neg hsmall, hnd]
        rfl
      · intro d hd
        rcases List.mem_append.mp hd with hd | hd
        · exact hall d hd
        · simp at hd
          subst hd
          exact isDigit_digitChar _ (by omega)
      · rw [show c :: (ds ++ [digitChar (n % 10)]) = (c :: ds) ++ [digitChar (n % 10)] from rfl]
        rw [digitsToNat_append_one, hval, toNat_digitChar _ (by omega)]
        omega

theorem takeWhile_digits_append (ds rest : List Char) (hds : ∀ c ∈ ds, isDigit c = true)
    (hrest : headNotDigit rest) : (ds ++ rest).takeWhile isDigit = ds := by
  induction ds with
  | nil =>
    match rest with
    | [] => rfl
    | c :: rest2 =>
      simp only [List.nil_append, List.takeWhile_cons]
      rw [show isDigit c = false from hrest]
      simp
  | cons c ds ih =>
    simp only [List.cons_append, List.takeWhile_cons]
    rw [hds c (by simp)]
    simp only [if_true]
    rw [ih (fun x hx => hds x (by simp [hx]))]

theorem dropWhile_digits_append (ds rest : List Char) (hds : ∀ c ∈ ds, isDigit c = true)
    (hrest : headNotDigit rest) : (ds ++ rest).dropWhile isDigit = rest := by
  induction ds with
  | nil =>
    match rest with
    | [] => rfl
    | c :: rest2 =>
      simp only [List.nil_append, List.dropWhile_cons]
      rw [show isDigit c = false from hrest]
      simp
  | cons c ds ih =>
    simp only [List.cons_append, List.dropWhile_cons]
    rw [hds c (by simp)]
    simp only [if_true]
    exact ih (fun x hx => hds x (by simp [hx]))

theorem takeDigits_append (ds rest : List Char) (hds : ∀ c ∈ ds, isDigit c = true)
    (hrest : headNotDigit rest) : takeDigits (ds ++ rest) = (ds, rest) := by
  unfold takeDigits
  rw [List.span_eq_take_drop, takeWhile_digits_append ds rest hds hrest,
    dropWhile_digits_append ds rest hds hrest]

theorem parseNum_printNat (n : Nat) (rest : List Char) (hn : n < 18446744073709551616)
    (hrest : headNotDigit rest) :
    parseNum (printNat n ++ rest) = some (n, rest) := by
  by_cases h0 : n = 0
  · subst h0
    rw [show printNat 0 = ['0'] from rfl]
    simp [parseNum]
  · obtain ⟨c, ds, hnd, hdig, hnz, hall, hval⟩ :=
      natDigits_spec 30 n (by omega) (by norm_num; omega)
    rw [show printNat n = natDigits 30 n from rfl, hnd]
    simp only [List.cons_append, parseNum, if_neg hnz, hdig, if_true]
    rw [takeDigits_append ds rest hall hrest]
    simp [hval]

theorem skipWs_cons (c : Char) (rest : List Char) (h : isWs c = false) :
    skipWs (c :: rest) = c :: rest := by
  simp [skipWs, h]

theorem isWs_false_of_toNat (c : Char) (h32 : ¬(c.toNat = 32)) (h9 : ¬(c.toNat = 9))
    (h10 : ¬(c.toNat = 10)) (h13 : ¬(c.toNat = 13)) : isWs c = false := by
  simp only [isWs, Bool.or_eq_false_iff, decide_eq_false_iff_not]
  exact ⟨⟨⟨char_ne_of_toNat_ne h32, char_ne_of_toNat_ne h9⟩,
    char_ne_of_toNat_ne h10⟩, char_ne_of_toNat_ne h13⟩

/-- Parsing a printed JSON string as a value. -/
theorem parseGo_val_str (s : String) (f : Nat) (rest : List Char)
    (hf : 2 * (printStr s ++ rest).length + 2 ≤ f) :
    parseGo f .val (printStr s ++ rest) = some (.val (.str s) rest) := by
  match f with
  | 0 => omega
  | f + 1 =>
    rw [show printStr s ++ rest = '"' :: (s.data.flatMap escChar ++ '"' :: rest) by
      simp [printStr]]
    simp [parseGo, skipWs, show isWs '"' = false from rfl, parseStr_escaped]

/-- Parsing the printed `null` literal as a value. -/
theorem parseGo_val_null (f : Nat) (rest : List Char)
    (hf : 2 * (['n', 'u', 'l', 'l'] ++ rest).length + 2 ≤ f) :
    parseGo f .val (['n', 'u', 'l', 'l'] ++ rest) = some (.val .null rest) := by
  match f with
  | 0 => omega
  | f + 1 =>
    simp only [List.cons_append, List.nil_append]
    simp [parseGo, skipWs, show isWs 'n' = false from rfl,
      show ¬(('n' : Char) = '"') from by decide]

/-- Parsing a printed number as a value. -/
theorem parseGo_val_num (n : Nat) (f : Nat) (rest : List Char)
    (hn : n < 18446744073709551616) (hrest : headNotDigit rest)
    (hf : 2 * (printNat n ++ rest).length + 2 ≤ f) :
    parseGo f .val (printNat n ++ rest) = some (.val (.num n) rest) := by
  match f with
  | 0 => omega
  | f + 1 =>
    have hshape : ∃ c ds, printNat n = c :: ds ∧ isDigit c = true := by
      by_cases h0 : n = 0
      · subst h0; exact ⟨'0', [], rfl, by decide⟩
      · obtain ⟨c, ds, hnd, hdig, _, _, _⟩ := natDigits_spec 30 n (by omega) (by norm_num; omega)
        exact ⟨c, ds, hnd, hdig⟩
    obtain ⟨c, ds, hnd, hdig⟩ := hshape
    have hcn : 48 ≤ c.toNat ∧ c.toNat ≤ 57 := by
      simp [isDigit] at hdig
      omega
    have hnum := parseNum_printNat n rest hn hrest
    rw [hnd] at hnum ⊢
    simp only [List.cons_append] at hnum ⊢
    have hws : isWs c = false :=
      isWs_false_of_toNat c (by omega) (by omega) (by omega) (by omega)
    have hne1 : ¬(c = '"') :=
      char_ne_of_toNat_ne (by rw [show ('"' : Char).toNat = 34 from rfl]; omega)
    have hne2 : ¬(c = 'n') :=
      char_ne_of_toNat_ne (by rw [show ('n' : Char).toNat = 110 from rfl]; omega)
    have hne3 : ¬(c = 't') :=
      char_ne_of_toNat_ne (by rw [show ('t' : Char).toNat = 116 from rfl]; omega)
    have hne4 : ¬(c = 'f') :=
      char_ne_of_toNat_ne (by rw [show ('f' : Char).toNat = 102 from rfl]; omega)
    have hne5 : ¬(c = '[') :=
      char_ne_of_toNat_ne (by rw [show ('[' : Char).toNat = 91 from rfl]; omega)
    have hne6 : ¬(c = '{') :=
      char_ne_of_toNat_ne (by rw [show ('{' : Char).toNat = 123 from rfl]; omega)
    simp [parseGo, skipWs, hws, hne1, hne2, hne3, hne4, hne5, hne6, hnum]

/-- Parsing a printed optional string (JSON `null` or a string). -/
theorem parseGo_val_optStr (o : Option String) (f : Nat) (rest : List Char)
    (hf : 2 * (Models.printOptStr o ++ rest).length + 2 ≤ f) :
    parseGo f .val (Models.printOptStr o ++ rest) = some (.val (optStrJson o) rest) := by
  match o with
  | none => exact parseGo_val_null f rest hf
  | some s => exact parseGo_val_str s f rest hf

/-- The parser consumes a non-empty comma-separated printed field list up to
the closing brace, given that each field's value text parses to its
document whenever the suffix does not begin with a digit. -/
theorem parseGo_fields_gen :
    ∀ (ts : List (String × Json × List Char)) (t : String × Json × List Char)
      (f : Nat) (rest : List Char),
      (∀ x ∈ t :: ts, ∀ (g : Nat) (r : List Char), headNotDigit r →
          2 * (x.2.2 ++ r).length + 2 ≤ g →
          parseGo g .val (x.2.2 ++ r) = some (.val x.2.1 r)) →
      2 * (joinComma ((t :: ts).map printFieldText) ++ '}' :: rest).length + 3 ≤ f →
      parseGo f .fields (joinComma ((t :: ts).map printFieldText) ++ '}' :: rest) =
        some (.fields ((t :: ts).map (fun x => (x.1, x.2.1))) rest) := by
  intro ts
  induction ts with
  | nil =>
    intro t f rest hval hf
    obtain ⟨k, v, vtext⟩ := t
    match f with
    | 0 => omega
    | f + 1 =>
      have hv := hval (k, v, vtext) (by simp) f ('}' :: rest)
        (by simp [headNotDigit, isDigit])
        (by simp [printFieldText, joinComma, printStr] at hf ⊢; omega)
      try simp at hv
      simp [parseGo, skipWs, printFieldText, joinComma, printStr,
        show isWs '"' = false from rfl, show isWs ':' = false from rfl,
        show isWs '}' = false from rfl, parseStr_escaped, hv]
  | cons t2 ts ih =>
    intro t f rest hval hf
    obtain ⟨k, v, vtext⟩ := t
    match f with
    | 0 => omega
    | f + 1 =>
      have hv := hval (k, v, vtext) (by simp) f
        (',' :: (joinComma (printFieldText t2 :: ts.map printFieldText) ++ '}' :: rest))
        (by simp [headNotDigit, isDigit])
        (by simp [printFieldText, joinComma, printStr] at hf ⊢; omega)
      have hrec := ih t2 f rest (fun x hx => hval x (by simp at hx ⊢; tauto))
        (by simp [printFieldText, joinComma, printStr] at hf ⊢; omega)
      try simp [printFieldText, printStr] at hv
      try simp [printFieldText, printStr] at hrec
      simp [parseGo, skipWs, printFieldText, joinComma, printStr,
        show isWs '"' = false from rfl, show isWs ':' = false from rfl,
        show isWs ',' = false from rfl, show isWs '}' = false from rfl,
        parseStr_escaped, hv, hrec]

/-- The parser consumes a non-empty comma-separated printed element list up
to the closing bracket, given that each element's text parses to its
document. -/
theorem parseGo_elems_gen {α : Type} (pr : α → List Char) (jn : α → Json) :
    ∀ (xs : List α) (x : α) (f : Nat) (rest : List Char),
      (∀ a ∈ x :: xs, ∀ (g : Nat) (r : List Char), headNotDigit r →
          2 * (pr a ++ r).length + 2 ≤ g →
          parseGo g .val (pr a ++ r) = some (.val (jn a) r)) →
      2 * (joinComma ((x :: xs).map pr) ++ ']' :: rest).length + 3 ≤ f →
      parseGo f .elems (joinComma ((x :: xs).map pr) ++ ']' :: rest) =
        some (.elems ((x :: xs).map jn) rest) := by
  intro xs
  induction xs with
  | nil =>
    intro x f rest hval hf
    match f with
    | 0 => omega
    | f + 1 =>
      have hv := hval x (by simp) f (']' :: rest)
        (by simp [headNotDigit, isDigit])
        (by simp [joinComma] at hf ⊢; omega)
      try simp at hv
      simp [parseGo, skipWs, joinComma, show isWs ']' = false from rfl, hv]
  | cons x2 xs ih =>
    intro x f rest hval hf
    match f with
    | 0 => omega
    | f + 1 =>
      have hv := hval x (by simp) f
        (',' :: (joinComma (pr x2 :: xs.map pr) ++ ']' :: rest))
        (by simp [headNotDigit, isDigit])
        (by simp [joinComma] at hf ⊢; omega)
      have hrec := ih x2 f rest (fun a ha => hval a (by simp at ha ⊢; tauto))
        (by simp [joinComma] at hf ⊢; omega)
      try simp at hv
      try simp at hrec
      simp [parseGo, skipWs, joinComma, show isWs ',' = false from rfl,
        show isWs ']' = false from rfl, hv, hrec]

/-- Parsing a printed array whose elements all print starting with `{`. -/
theorem parseGo_val_arr_gen {α : Type} (pr : α → List Char) (jn : α → Json)
    (xs : List α) (f : Nat) (rest : List Char)
    (hval : ∀ a ∈ xs, ∀ (g : Nat) (r : List Char), headNotDigit r →
        2 * (pr a ++ r).length + 2 ≤ g →
        parseGo g .val (pr a ++ r) = some (.val (jn a) r))
    (hhead : ∀ a ∈ xs, ∃ tl, pr a = '{' :: tl)
    (hf : 2 * (Models.printArr (xs.map pr) ++ rest).length + 2 ≤ f) :
    parseGo f .val (Models.printArr (xs.map pr) ++ rest) =
      some (.val (.arr (xs.map jn)) rest) := by
  match xs with
  | [] =>
    match f with
    | 0 => omega
    | f + 1 =>
      simp [Models.printArr, joinComma, parseGo, skipWs,
        show isWs '[' = false from rfl, show isWs ']' = false from rfl]
  | x :: xs =>
    match f with
    | 0 => omega
    | f + 1 =>
      obtain ⟨tl, htl⟩ := hhead x (by simp)
      match xs with
      | [] =>
        have hsh : joinComma ((x :: ([] : List α)).map pr) ++ ']' :: rest =
            '{' :: (tl ++ ']' :: rest) := by
          simp [joinComma, htl]
        have helems := parseGo_elems_gen pr jn [] x f rest hval
          (by simp [Models.printArr] at hf ⊢; omega)
        rw [hsh] at helems
        simp only [List.map_cons, List.map_nil] at hsh helems ⊢
        simp [Models.printArr, parseGo, skipWs, show isWs '[' = false from rfl,
          show isWs '{' = false from rfl, hsh, helems]
      | x2 :: xs2 =>
        have hsh : joinComma ((x :: x2 :: xs2).map pr) ++ ']' :: rest =
            '{' :: (tl ++ ',' :: (joinComma ((x2 :: xs2).map pr) ++ ']' :: rest)) := by
          simp [joinComma, htl]
        have helems := parseGo_elems_gen pr jn (x2 :: xs2) x f rest hval
          (by simp [Models.printArr] at hf ⊢; omega)
        rw [hsh] at helems
        simp only [List.map_cons] at hsh helems ⊢
        simp [Models.printArr, parseGo, skipWs, show isWs '[' = false from rfl,
          show isWs '{' = false from rfl, hsh, helems]

/-- Parsing a printed non-empty object as a value. -/
theorem parseGo_val_obj_gen (ts : List (String × Json × List Char))
    (t : String × Json × List Char) (f : Nat) (rest : List Char)
    (hval : ∀ x ∈ t :: ts, ∀ (g : Nat) (r : List Char), headNotDigit r →
        2 * (x.2.2 ++ r).length + 2 ≤ g →
        parseGo g .val (x.2.2 ++ r) = some (.val x.2.1 r))
    (hf : 2 * (('{' :: (joinComma ((t :: ts).map printFieldText) ++ '}' :: rest)).length) + 2
        ≤ f) :
    parseGo f .val ('{' :: (joinComma ((t :: ts).map printFieldText) ++ '}' :: rest)) =
      some (.val (.obj ((t :: ts).map (fun x => (x.1, x.2.1)))) rest) := by
  match f with
  | 0 => omega
  | f + 1 =>
    match ts with
    | [] =>
      have hsh : joinComma ((t :: ([] : List (String × Json × List Char))).map printFieldText)
          ++ '}' :: rest =
          '"' :: (t.1.data.flatMap escChar ++ '"' :: (':' :: (t.2.2 ++ '}' :: rest))) := by
        simp [joinComma, printFieldText, printStr]
      have hflds := parseGo_fields_gen [] t f rest hval (by simp at hf ⊢; omega)
      rw [hsh] at hflds
      simp only [List.map_cons, List.map_nil] at hsh hflds ⊢
      simp [parseGo, skipWs, show isWs '{' = false from rfl,
        show isWs '"' = false from rfl, hsh, hflds]
    | t2 :: ts2 =>
      have hsh : joinComma ((t :: t2 :: ts2).map printFieldText) ++ '}' :: rest =
          '"' :: (t.1.data.flatMap escChar ++ '"' :: (':' :: (t.2.2 ++
            ',' :: (joinComma ((t2 :: ts2).map printFieldText) ++ '}' :: rest)))) := by
        simp [joinComma, printFieldText, printStr]
      have hflds := parseGo_fields_gen (t2 :: ts2) t f rest hval (by simp at hf ⊢; omega)
      rw [hsh] at hflds
      simp only [List.map_cons] at hsh hflds ⊢
      simp [parseGo, skipWs, show isWs '{' = false from rfl,
        show isWs '"' = false from rfl, hsh, hflds]

/-- Parsing a printed `Proof` object yields its canonical document. -/
theorem parseGo_val_proofChars (p : Models.Proof) (f : Nat) (rest : List Char)
    (hA : p.amount < 18446744073709551616)
    (hf : 2 * (Models.Proof.printChars p ++ rest).length + 2 ≤ f) :
    parseGo f .val (Models.Proof.printChars p ++ rest) = some (.val (specProofJson p) rest) := by
  have hsh : Models.Proof.printChars p ++ rest =
      '{' :: (joinComma ([("id", optStrJson p.id, Models.printOptStr p.id),
        ("amount", Json.num p.amount, printNat p.amount),
        ("secret", Json.str p.secret, printStr p.secret),
        ("C", Json.str ⟨hexEncode p.unblinded_key⟩,
          printStr ⟨hexEncode p.unblinded_key⟩)].map printFieldText) ++ '}' :: rest) := by
    simp [Models.Proof.printChars, joinComma, printFieldText]
  rw [hsh] at hf ⊢
  have h := parseGo_val_obj_gen
    [("amount", Json.num p.amount, printNat p.amount),
     ("secret", Json.str p.secret, printStr p.secret),
     ("C", Json.str ⟨hexEncode p.unblinded_key⟩, printStr ⟨hexEncode p.unblinded_key⟩)]
    ("id", optStrJson p.id, Models.printOptStr p.id) f rest ?hv hf
  case hv =>
    intro x hx g r hr hg
    simp at hx
    rcases hx with rfl | rfl | rfl | rfl
    · exact parseGo_val_optStr p.id g r hg
    · exact parseGo_val_num p.amount g r hA hr hg
    · exact parseGo_val_str p.secret g r hg
    · exact parseGo_val_str ⟨hexEncode p.unblinded_key⟩ g r hg
  rw [h]
  simp [specProofJson]

/-- Parsing a printed `MintToken` object yields its canonical document. -/
theorem parseGo_val_mintTokenChars (m : Models.MintToken) (f : Nat) (rest : List Char)
    (hA : ∀ p ∈ m.proofs, p.amount < 18446744073709551616)
    (hf : 2 * (Models.MintToken.printChars m ++ rest).length + 2 ≤ f) :
    parseGo f .val (Models.MintToken.printChars m ++ rest) =
      some (.val (specMintTokenJson m) rest) := by
  have hsh : Models.MintToken.printChars m ++ rest =
      '{' :: (joinComma ([("mint", Json.str m.mint.raw, printStr m.mint.raw),
        ("proofs", Json.arr (m.proofs.map specProofJson),
          Models.printArr (m.proofs.map Models.Proof.printChars))].map printFieldText)
        ++ '}' :: rest) := by
    simp [Models.MintToken.printChars, joinComma, printFieldText]
  rw [hsh] at hf ⊢
  have h := parseGo_val_obj_gen
    [("proofs", Json.arr (m.proofs.map specProofJson),
      Models.printArr (m.proofs.map Models.Proof.printChars))]
    ("mint", Json.str m.mint.raw, printStr m.mint.raw) f rest ?hv hf
  case hv =>
    intro x hx g r hr hg
    simp at hx
    rcases hx with rfl | rfl
    · exact parseGo_val_str m.mint.raw g r hg
    · exact parseGo_val_arr_gen Models.Proof.printChars specProofJson m.proofs g r
        (fun p hp g2 r2 hr2 hg2 => parseGo_val_proofChars p g2 r2 (hA p hp) hg2)
        (fun p _ => ⟨_, rfl⟩) hg
  rw [h]
  simp [specMintTokenJson]

/-- Parsing a printed `Token` object yields its canonical document. -/
theorem parseGo_val_tokenChars (t : Models.Token) (f : Nat) (rest : List Char)
    (hA : ∀ m ∈ t.token, ∀ p ∈ m.proofs, p.amount < 18446744073709551616)
    (hf : 2 * (Models.Token.printChars t ++ rest).length + 2 ≤ f) :
    parseGo f .val (Models.Token.printChars t ++ rest) =
      some (.val (specTokenJson t) rest) := by
  have hsh : Models.Token.printChars t ++ rest =
      '{' :: (joinComma ([("token", Json.arr (t.token.map specMintTokenJson),
        Models.printArr (t.token.map Models.MintToken.printChars)),
        ("memo", optStrJson t.memo, Models.printOptStr t.memo)].map printFieldText)
        ++ '}' :: rest) := by
    simp [Models.Token.printChars, joinComma, printFieldText]
  rw [hsh] at hf ⊢
  have h := parseGo_val_obj_gen
    [("memo", optStrJson t.memo, Models.printOptStr t.memo)]
    ("token", Json.arr (t.token.map specMintTokenJson),
      Models.printArr (t.token.map Models.MintToken.printChars)) f rest ?hv hf
  case hv =>
    intro x hx g r hr hg
    simp at hx
    rcases hx with rfl | rfl
    · exact parseGo_val_arr_gen Models.MintToken.printChars specMintTokenJson t.token g r
        (fun m hm g2 r2 hr2 hg2 => parseGo_val_mintTokenChars m g2 r2 (hA m hm) hg2)
        (fun m _ => ⟨_, rfl⟩) hg
    · exact parseGo_val_optStr t.memo g r hg
  rw [h]
  simp [specTokenJson]

/-- Parsing the full printed token text consumes it entirely. -/
theorem parseJson_printChars (t : Models.Token)
    (hA : ∀ m ∈ t.token, ∀ p ∈ m.proofs, p.amount < 18446744073709551616) :
    parseJson (Models.Token.printChars t) = some (specTokenJson t, []) := by
  unfold parseJson
  have h := parseGo_val_tokenChars t (2 * (Models.Token.printChars t).length + 2) [] hA
    (by simp)
  rw [List.append_nil] at h
  rw [h]

/-- Model of `serde_json::from_str::<Token>` on the printed token text. -/
theorem jsonToToken_printed (t : Models.Token)
    (hA : ∀ m ∈ t.token, ∀ p ∈ m.proofs, p.amount < 18446744073709551616) :
    Models.jsonToToken ⟨Models.Token.printChars t⟩ = Models.Token.fromJson (specTokenJson t) := by
  unfold Models.jsonToToken jsonDecode
  rw [show (⟨Models.Token.printChars t⟩ : String).data = Models.Token.printChars t from rfl]
  rw [parseJson_printChars t hA]
  simp [skipWs]

/-! ## Decoding the canonical documents back to the wire values -/

theorem Proof_fromJson_spec (p : Models.Proof) (hwf : Models.Proof.Wf p) :
    Models.Proof.fromJson (specProofJson p) = .ok p := by
  obtain ⟨hA, hB⟩ := hwf
  obtain ⟨i, a, s, c⟩ := p
  simp only [Models.Proof.Wf] at hA hB
  simp [specProofJson, Models.Proof.fromJson, Models.countKey, Models.getField,
    Models.decodeOptStr, Models.decodeU64, Models.decodeStr, Models.decodeHexBytes,
    hexDecode_hexEncode c hB, hA, List.find?, List.filter]
  cases i <;> simp [Models.decodeOptStr, optStrJson]
  all_goals rfl

theorem decodeListGo_map {α : Type} (dec : Json → Except JsonError α) (jn : α → Json)
    (xs : List α) (h : ∀ x ∈ xs, dec (jn x) = .ok x) :
    Models.decodeListGo dec (xs.map jn) = .ok xs := by
  induction xs with
  | nil => rfl
  | cons x xs ih =>
    simp [Models.decodeListGo, h x (by simp), ih (fun y hy => h y (by simp [hy]))]
    rfl

theorem MintToken_fromJson_spec (m : Models.MintToken) (hwf : Models.MintToken.Wf m) :
    Models.MintToken.fromJson (specMintTokenJson m) = .ok m := by
  obtain ⟨hu, hp⟩ := hwf
  obtain ⟨u, ps⟩ := m
  have hdec := decodeListGo_map Models.Proof.fromJson specProofJson ps
    (fun p hpm => Proof_fromJson_spec p (hp p hpm))
  simp [specMintTokenJson, Models.MintToken.fromJson, Models.countKey, Models.getField,
    List.find?, List.filter, hdec, show WireUrl.parse u.raw = some u from hu]
  rfl

theorem Token_fromJson_spec (t : Models.Token) (hwf : Models.Token.Wf t) :
    Models.Token.fromJson (specTokenJson t) = .ok t := by
  obtain ⟨ms, memo⟩ := t
  have hdec := decodeListGo_map Models.MintToken.fromJson specMintTokenJson ms
    (fun m hm => MintToken_fromJson_spec m (hwf m hm))
  simp [specTokenJson, Models.Token.fromJson, Models.countKey, Models.getField,
    List.find?, List.filter, hdec]
  cases memo <;> simp [Models.decodeOptStr, optStrJson]
  all_goals rfl

theorem stripCashuA_append (s : String) : Models.stripCashuA ("cashuA" ++ s) = some s := rfl

/-! ## Claim theorems for the wire model -/

/-- C4: for every well-formed in-memory token, serialization succeeds and
deserializing the produced text returns the identical token, proof order
included. -/
theorem claim_C4 (t : Models.Token) (hwf : Models.Token.Wf t) :
    ∃ s, Models.Token.serialize t = .ok s ∧ Models.Token.deserialize s = .ok t := by
  refine ⟨"cashuA" ++ b64Encode (utf8Encode ⟨Models.Token.printChars t⟩), rfl, ?_⟩
  have hA : ∀ m ∈ t.token, ∀ p ∈ m.proofs, p.amount < 18446744073709551616 :=
    fun m hm p hp => ((hwf m hm).2 p hp).1
  simp [Models.Token.deserialize, stripCashuA_append,
    b64Decode_b64Encode (utf8Encode ⟨Models.Token.printChars t⟩)
      (utf8Encode_lt256 ⟨Models.Token.printChars t⟩),
    utf8Decode_utf8Encode, jsonToToken_printed t hA, Token_fromJson_spec t hwf]

/-- Witness for C4 on a concrete two-proof token. -/
theorem claim_C4_witness :
    ∃ s, Models.Token.serialize tokenExample = .ok s ∧
      Models.Token.deserialize s = .ok tokenExample :=
  claim_C4 tokenExample (by decide)

/-- C5: `deserialize` fails with `TokenV3` (no cause) exactly when the
`cashuA` tag is missing, with `TokenV3` wrapping the stage error exactly
when base64, UTF-8 or JSON decoding fails, succeeds otherwise, and never
returns any other error kind. -/
theorem claim_C5 (s : String) :
    (Models.stripCashuA s = none → Models.Token.deserialize s = .error (.tokenV3 none))
    ∧ (∀ rest, Models.stripCashuA s = some rest →
        (∀ e, b64Decode rest = .error e →
          Models.Token.deserialize s = .error (.tokenV3 (some (.b64 e))))
        ∧ (∀ bs, b64Decode rest = .ok bs →
            (∀ e, utf8Decode bs = .error e →
              Models.Token.deserialize s = .error (.tokenV3 (some (.utf8 e))))
            ∧ (∀ text, utf8Decode bs = .ok text →
                (∀ e, Models.jsonToToken text = .error e →
                  Models.Token.deserialize s = .error (.tokenV3 (some (.json e))))
                ∧ (∀ tok, Models.jsonToToken text = .ok tok →
                    Models.Token.deserialize s = .ok tok))))
    ∧ Models.Token.deserialize s ≠ .error .eccArithmetic
    ∧ (∀ e, Models.Token.deserialize s ≠ .error (.hexConversion e)) := by
  have hshape : (∃ tok, Models.Token.deserialize s = .ok tok) ∨
      (∃ c, Models.Token.deserialize s = .error (.tokenV3 c)) := by
    rcases h1 : Models.stripCashuA s with _ | rest
    · exact Or.inr ⟨none, by simp [Models.Token.deserialize, h1]⟩
    · rcases h2 : b64Decode rest with e | bs
      · exact Or.inr ⟨some (.b64 e), by simp [Models.Token.deserialize, h1, h2]⟩
      · rcases h3 : utf8Decode bs with e | text
        · exact Or.inr ⟨some (.utf8 e), by simp [Models.Token.deserialize, h1, h2, h3]⟩
        · rcases h4 : Models.jsonToToken text with e | tok
          · exact Or.inr ⟨some (.json e), by simp [Models.Token.deserialize, h1, h2, h3, h4]⟩
          · exact Or.inl ⟨tok, by simp [Models.Token.deserialize, h1, h2, h3, h4]⟩
  refine ⟨?_, ?_, ?_, ?_⟩
  · intro h
    simp [Models.Token.deserialize, h]
  · intro rest h
    refine ⟨?_, ?_⟩
    · intro e he
      simp [Models.Token.deserialize, h, he]
    · intro bs hbs
      refine ⟨?_, ?_⟩
      · intro e he
        simp [Models.Token.deserialize, h, hbs, he]
      · intro text ht
        refine ⟨?_, ?_⟩
        · intro e he
          simp [Models.Token.deserialize, h, hbs, ht, he]
        · intro tok htok
          simp [Models.Token.deserialize, h, hbs, ht, htok]
  · rcases hshape with ⟨tok, h⟩ | ⟨c, h⟩ <;> simp [h]
  · intro e
    rcases hshape with ⟨tok, h⟩ | ⟨c, h⟩ <;> simp [h]

/-- Witness for C5: each failure stage hit by a concrete input, and one
concrete success. -/
theorem claim_C5_witness :
    Models.Token.deserialize "hello" = .error (.tokenV3 none)
    ∧ Models.Token.deserialize "cashuA!!!" = .error (.tokenV3 (some (.b64 .invalidLength)))
    ∧ Models.Token.deserialize "cashuA_w==" = .error (.tokenV3 (some (.utf8 (.invalid 0))))
    ∧ Models.Token.deserialize "cashuAQQ==" = .error (.tokenV3 (some (.json .parseFailure)))
    ∧ Models.Token.deserialize
        ("cashuA" ++ b64Encode (utf8Encode "\x7b\"token\":[],\"memo\":null\x7d")) =
        .ok ⟨[], none⟩ := by
  refine ⟨(claim_C5 "hello").1 (by decide),
    ((claim_C5 "cashuA!!!").2.1 "!!!" (by decide)).1 .invalidLength (by decide),
    (((claim_C5 "cashuA_w==").2.1 "_w==" (by decide)).2 [255] (by decide)).1
      (.invalid 0) (by decide),
    ((((claim_C5 "cashuAQQ==").2.1 "QQ==" (by decide)).2 [65] (by decide)).2 "A"
      (by decide)).1 .parseFailure (by decide),
    ((((claim_C5 ("cashuA" ++ b64Encode (utf8Encode "\x7b\"token\":[],\"memo\":null\x7d"))).2.1
      (b64Encode (utf8Encode "\x7b\"token\":[],\"memo\":null\x7d")) (by decide)).2
      (utf8Encode "\x7b\"token\":[],\"memo\":null\x7d") (by decide)).2
      "\x7b\"token\":[],\"memo\":null\x7d" (by decide)).2 ⟨[], none⟩ (by decide)⟩

/-! Equality of the derived per-struct serializers with the generic printing
of the spec's canonical documents, for C6. -/

theorem printJsonF_optStr (f : Nat) (o : Option String) :
    printJsonF (f + 1) (optStrJson o) = Models.printOptStr o := by
  cases o <;> simp [printJsonF, optStrJson, Models.printOptStr]

theorem printJsonF_proof (f : Nat) (p : Models.Proof) :
    printJsonF (f + 2) (specProofJson p) = Models.Proof.printChars p := by
  simp [printJsonF, specProofJson, Models.Proof.printChars, joinComma,
    printJsonF_optStr f p.id]

theorem printJsonF_mintToken (f : Nat) (m : Models.MintToken) :
    printJsonF (f + 4) (specMintTokenJson m) = Models.MintToken.printChars m := by
  have harr : (m.proofs.map specProofJson).map (printJsonF (f + 2)) =
      m.proofs.map Models.Proof.printChars := by
    rw [List.map_map]
    exact List.map_congr_left (fun p _ => printJsonF_proof f p)
  simp [printJsonF, specMintTokenJson, Models.MintToken.printChars, Models.printArr,
    joinComma, harr]

theorem printJsonF_token (f : Nat) (t : Models.Token) :
    printJsonF (f + 6) (specTokenJson t) = Models.Token.printChars t := by
  have harr : (t.token.map specMintTokenJson).map (printJsonF (f + 4)) =
      t.token.map Models.MintToken.printChars := by
    rw [List.map_map]
    exact List.map_congr_left (fun m _ => printJsonF_mintToken f m)
  simp [printJsonF, specTokenJson, Models.Token.printChars, Models.printArr, joinComma,
    harr, printJsonF_optStr (f + 4) t.memo]

/-- C6: `serialize` emits the `cashuA` tag followed by padded base64url of
the UTF-8 JSON document whose field names and order are exactly those of the
spec's canonical documents, optional absent fields appearing as `null` per
the JSON library default. -/
theorem claim_C6 (t : Models.Token) :
    Models.Token.serialize t =
      .ok ("cashuA" ++ b64Encode (utf8Encode ⟨printJsonF 8 (specTokenJson t)⟩)) := by
  have h := printJsonF_token 2 t
  rw [show (2 : Nat) + 6 = 8 from rfl] at h
  simp [Models.Token.serialize, h]

/-- C10: wire-model JSON decoding performs no curve-point validation: the
hex point fields accept `"abcd"`, which is not a valid SEC1 point, for
`Proof`, `BlindedMessage` and `BlindedSignature`, and a whole token carrying
such a proof round-trips; the crypto-layer wrapper rejects those bytes. -/
theorem claim_C10 :
    jsonDecode Models.Proof.fromJson
      "\x7b\"id\":null,\"amount\":1,\"secret\":\"s\",\"C\":\"abcd\"\x7d" =
      .ok ⟨none, 1, "s", [0xab, 0xcd]⟩
    ∧ jsonDecode Models.BlindedMessage.fromJson "\x7b\"amount\":1,\"B_\":\"abcd\"\x7d" =
      .ok ⟨1, [0xab, 0xcd]⟩
    ∧ jsonDecode Models.BlindedSignature.fromJson
      "\x7b\"id\":null,\"amount\":1,\"C_\":\"abcd\"\x7d" = .ok ⟨none, 1, [0xab, 0xcd]⟩
    ∧ (Models.Token.serialize ⟨[⟨⟨"https://m.example:1"⟩, [⟨none, 1, "s", [0xab, 0xcd]⟩]⟩],
        none⟩).bind Models.Token.deserialize =
      .ok ⟨[⟨⟨"https://m.example:1"⟩, [⟨none, 1, "s", [0xab, 0xcd]⟩]⟩], none⟩
    ∧ fromSec1Bytes [0xab, 0xcd] = none
    ∧ BlindedMessage.from_hex "abcd" = .error .eccArithmetic := by
  exact ⟨by decide, by decide, by decide, by decide, by decide, by decide⟩

end CashTest
